import Mathlib

/-!
# Binary search tree over string keys (`BinarySearchTree.cpp`, `BinarySearchTree.h`)

A shallow embedding of the linked binary search tree and a verification of its
contract.

* The heap reachable from a `TreeNode*` is tree shaped (every node is owned by exactly
  one link), so a pointer value together with everything it owns is a `TreeNode`, and the
  identity of a node is its position: a `Ptr` is `none` for `nullptr` and `some p` for
  the node reached from the root by the links `p`.  Pointer comparisons of the source
  are comparisons of positions.
* A member function that mutates the tree returns the new `BinarySearchTree`; a member
  function that can throw returns its outcome together with the tree after the call.
* `std::string` is `String`; `operator<` is the lexicographic order `strLt`.
-/

/-- Modelled from the spec: the node record `TreeNode` (declared in `TreeNode.h`, which is
not part of the sources) holds a string key and two owned child links, each absent or a
node, with get/set access to the key and to both links.  A value of this type is such a
link with all it owns: `null` is `nullptr`, `node left data right` points to a record with
these three fields. -/
inductive TreeNode where
  | null : TreeNode
  | node (left : TreeNode) (data : String) (right : TreeNode) : TreeNode
  deriving DecidableEq

/-- One step along a child link. -/
inductive Dir where
  | L : Dir
  | R : Dir
  deriving DecidableEq

/-- A `TreeNode*` into the tree owned by `root`: `none` is `nullptr`, `some p` is the node
reached from the root by following the links `p`. -/
abbrev Ptr := Option (List Dir)

/-- The comparison `a < b` of two `std::string`s: lexicographic order of the character
sequences (on UTF-8 text the order by bytes and the order by code points agree). -/
def strLt (a b : String) : Bool := decide (a.data < b.data)

namespace TreeNode

/-- The test `thisNode == nullptr`. -/
def isNull : TreeNode → Bool
  | null => true
  | node _ _ _ => false

/-- The node (with all it owns) found by following the links `p`; `null` when a link on
the way is absent. -/
def sub : TreeNode → List Dir → TreeNode
  | t, [] => t
  | null, _ :: _ => null
  | node l _ _, Dir.L :: p => sub l p
  | node _ _ r, Dir.R :: p => sub r p

/-- The tree after the node at position `p` (with all it owns) is replaced by `f` of it. -/
def modify (f : TreeNode → TreeNode) : TreeNode → List Dir → TreeNode
  | t, [] => f t
  | null, _ :: _ => null
  | node l d r, Dir.L :: p => node (modify f l p) d r
  | node l d r, Dir.R :: p => node l d (modify f r p)

/-- The accessor `getData()` of the node at `p`. -/
def getData (t : TreeNode) (p : List Dir) : String :=
  match t.sub p with
  | null => ""
  | node _ d _ => d

/-- The accessor `getLeft()` of the node at `p`: a pointer to its left child. -/
def getLeft (t : TreeNode) (p : List Dir) : Ptr :=
  match t.sub p with
  | null => none
  | node l _ _ => if l.isNull then none else some (p ++ [Dir.L])

/-- The accessor `getRight()` of the node at `p`: a pointer to its right child. -/
def getRight (t : TreeNode) (p : List Dir) : Ptr :=
  match t.sub p with
  | null => none
  | node _ _ r => if r.isNull then none else some (p ++ [Dir.R])

/-- The pointee of a pointer, with all it owns. -/
def deref (t : TreeNode) : Ptr → TreeNode
  | none => null
  | some p => t.sub p

/-- The mutator `setLeft(c)` on the node at `p`. -/
def setLeft (t : TreeNode) (p : List Dir) (c : TreeNode) : TreeNode :=
  t.modify (fun n => match n with
    | null => null
    | node _ d r => node c d r) p

/-- The mutator `setRight(c)` on the node at `p`. -/
def setRight (t : TreeNode) (p : List Dir) (c : TreeNode) : TreeNode :=
  t.modify (fun n => match n with
    | null => null
    | node l d _ => node l d c) p

/-- The mutator `setData(s)` on the node at `p`. -/
def setData (t : TreeNode) (p : List Dir) (s : String) : TreeNode :=
  t.modify (fun n => match n with
    | null => null
    | node l _ r => node l s r) p

/-- The keys in inorder: left subtree, this node, right subtree. -/
def inorderKeys : TreeNode → List String
  | null => []
  | node l d r => inorderKeys l ++ d :: inorderKeys r

/-- The keys in preorder: this node, left subtree, right subtree. -/
def preorderKeys : TreeNode → List String
  | null => []
  | node l d r => d :: (preorderKeys l ++ preorderKeys r)

/-- The keys in postorder: left subtree, right subtree, this node. -/
def postorderKeys : TreeNode → List String
  | null => []
  | node l d r => postorderKeys l ++ (postorderKeys r ++ [d])

/-- The BST property: for every node, every key of its left subtree is strictly less
than its key and every key of its right subtree is strictly greater. -/
def IsBST : TreeNode → Prop
  | null => True
  | node l d r =>
    (∀ k ∈ inorderKeys l, k < d) ∧ (∀ k ∈ inorderKeys r, d < k) ∧ IsBST l ∧ IsBST r

end TreeNode

/-- The class `BinarySearchTree`: its only data member that changes is `root`. -/
structure BinarySearchTree where
  root : TreeNode
  deriving DecidableEq

namespace BinarySearchTree

open TreeNode

/-- The member `NOT_FOUND_MESSAGE`. -/
def NOT_FOUND_MESSAGE : String := "Did not locate node in tree."

/-- The message of the `logic_error` thrown by `insertNode`. -/
def DUPLICATE_MESSAGE : String :=
  "Error -- cannot insert a duplicate node in a Binary Search Tree."

/-- The text appended by the traversals when they are handed `nullptr`. -/
def OOPS_MESSAGE : String := "Oops - inorder reached nullptr"

/-- The default constructor: `root = nullptr`. -/
def empty : BinarySearchTree := ⟨null⟩

/-- The pointer held in `root`. -/
def rootPtr (bst : BinarySearchTree) : Ptr :=
  if bst.root.isNull then none else some []

/-- Member function `isEmpty()`. -/
def isEmpty (bst : BinarySearchTree) : Bool :=
  if bst.root.isNull then true else false

/-- The `while (node != nullptr)` loop of `findNode`.  The first argument is the pointee
of `node`, the second the pointer `node` itself, the third `parent`; the result is the
final `(node, parent)`. -/
def findLoop (key : String) : TreeNode → List Dir → Ptr → Ptr × Ptr
  | null, _, parent => (none, parent)
  | node l d r, nodePtr, parent =>
    if d = key then (some nodePtr, parent)
    else if strLt key d then findLoop key l (nodePtr ++ [Dir.L]) (some nodePtr)
    else findLoop key r (nodePtr ++ [Dir.R]) (some nodePtr)

/-- Member function `findNode(key, node, parent)`: the values of the two out-parameters. -/
def findNode (bst : BinarySearchTree) (key : String) : Ptr × Ptr :=
  findLoop key bst.root [] none

/-- Member function `insertNode(newData)`: `Except.error` is the thrown `logic_error`; the
second component is the tree after the call. -/
def insertNode (bst : BinarySearchTree) (newData : String) :
    Except String Unit × BinarySearchTree :=
  let newNode := node null newData null
  let found := bst.findNode newData
  let searchNode := found.1
  let parentNode := found.2
  if searchNode ≠ none then (Except.error DUPLICATE_MESSAGE, bst)
  else
    match parentNode with
    | none => (Except.ok (), ⟨newNode⟩)
    | some pp =>
      if strLt newData (bst.root.getData pp) then
        (Except.ok (), ⟨bst.root.setLeft pp newNode⟩)
      else
        (Except.ok (), ⟨bst.root.setRight pp newNode⟩)

/-- The loop `while (tempPtr->getRight() != nullptr)` of `deleteNode`.  The first argument
is the pointee of `tempPtr`; the result is the final `(tempPtr, tempParent)`. -/
def rightmostLoop : TreeNode → List Dir → List Dir → List Dir × List Dir
  | null, tempPtr, tempParent => (tempPtr, tempParent)
  | node _ _ r, tempPtr, tempParent =>
    if r.isNull then (tempPtr, tempParent)
    else rightmostLoop r (tempPtr ++ [Dir.R]) tempPtr

/-- Member function `deleteNode(key)`: the returned string and the tree after the call.
`pp` is the node `parentNode` points to; it is read only in the branches where
`searchNode` is not the root, and there `parentNode` is not `nullptr`. -/
def deleteNode (bst : BinarySearchTree) (key : String) : String × BinarySearchTree :=
  let found := bst.findNode key
  let searchNode := found.1
  let parentNode := found.2
  match searchNode with
  | none => (NOT_FOUND_MESSAGE, bst)
  | some sp =>
    let pp := parentNode.getD []
    let returnValue := bst.root.getData sp
    let rootFlag : Bool := decide (searchNode = bst.rootPtr)
    let sLeft := bst.root.getLeft sp
    let sRight := bst.root.getRight sp
    if sLeft = none ∧ sRight = none then
      if rootFlag = true then (returnValue, ⟨null⟩)
      else if bst.root.getLeft pp = searchNode then
        (returnValue, ⟨bst.root.setLeft pp null⟩)
      else (returnValue, ⟨bst.root.setRight pp null⟩)
    else if sLeft ≠ none ∧ sRight = none then
      if rootFlag = true then (returnValue, ⟨bst.root.deref sLeft⟩)
      else if bst.root.getLeft pp = searchNode then
        (returnValue, ⟨bst.root.setLeft pp (bst.root.deref sLeft)⟩)
      else (returnValue, ⟨bst.root.setRight pp (bst.root.deref sLeft)⟩)
    else if sLeft = none ∧ sRight ≠ none then
      if rootFlag = true then (returnValue, ⟨bst.root.deref sRight⟩)
      else if bst.root.getLeft pp = searchNode then
        (returnValue, ⟨bst.root.setLeft pp (bst.root.deref sRight)⟩)
      else (returnValue, ⟨bst.root.setRight pp (bst.root.deref sRight)⟩)
    else
      let temp := rightmostLoop (bst.root.deref sLeft) (sp ++ [Dir.L]) sp
      let tempPtr := temp.1
      let tempParent := temp.2
      let root1 := bst.root.setData sp (bst.root.getData tempPtr)
      if root1.getLeft tempParent = some tempPtr then
        (returnValue, ⟨root1.setLeft tempParent null⟩)
      else (returnValue, ⟨root1.setRight tempParent null⟩)

/-- Member function `fetchNode(key)`. -/
def fetchNode (bst : BinarySearchTree) (key : String) : String :=
  let found := bst.findNode key
  let targetNode := found.1
  match targetNode with
  | some tp => bst.root.getData tp
  | none => NOT_FOUND_MESSAGE

/-- Member function `updateNode(oldContents, newContents)`: a delete followed by an insert. -/
def updateNode (bst : BinarySearchTree) (oldContents newContents : String) :
    Except String Unit × BinarySearchTree :=
  (bst.deleteNode oldContents).2.insertNode newContents

/-- The private `inorder(thisNode, outString)`: the value of `outString` afterwards. -/
def inorder : TreeNode → String → String
  | null, outString => outString ++ OOPS_MESSAGE
  | node l d r, outString =>
    let out1 := if l.isNull then outString else inorder l outString
    let out2 := out1 ++ (d ++ "\t")
    if r.isNull then out2 else inorder r out2

/-- The private `preorder(thisNode, outString)`: the value of `outString` afterwards. -/
def preorder : TreeNode → String → String
  | null, outString => outString ++ OOPS_MESSAGE
  | node l d r, outString =>
    let out1 := outString ++ ("[" ++ d ++ "] ")
    let out2 := if l.isNull then out1 else preorder l out1
    if r.isNull then out2 else preorder r out2

/-- The private `postorder(thisNode, outString)`: the value of `outString` afterwards. -/
def postorder : TreeNode → String → String
  | null, outString => outString ++ OOPS_MESSAGE
  | node l d r, outString =>
    let out1 := if l.isNull then outString else postorder l outString
    let out2 := if r.isNull then out1 else postorder r out1
    out2 ++ ("[" ++ d ++ "] ")

/-- The private `count(thisNode, numNodes)`: the value of `numNodes` afterwards.  The
counter is a C++ `int`, taken here without its upper bound. -/
def count : TreeNode → Nat → Nat
  | null, numNodes => numNodes
  | node l _ r, numNodes =>
    let n1 := if l.isNull then numNodes else count l numNodes
    let n2 := if r.isNull then n1 else count r n1
    n2 + 1

/-- Member function `inorderTraversal()`. -/
def inorderTraversal (bst : BinarySearchTree) : String := inorder bst.root ""

/-- Member function `preorderTraversal()`. -/
def preorderTraversal (bst : BinarySearchTree) : String := preorder bst.root ""

/-- Member function `postorderTraversal()`. -/
def postorderTraversal (bst : BinarySearchTree) : String := postorder bst.root ""

/-- Member function `countNodes()`. -/
def countNodes (bst : BinarySearchTree) : Nat := count bst.root 0

/-- The message of the `logic_error` thrown by `inorderTraversalFillArray`. -/
def SIZE_MESSAGE : String := "Fatal error in Binary Search Tree sort."

/-- What `inorderFillArray` works on: the cells of `the_array` (cell `i` is the string at
`the_array[i]`; the memory behind the pointer is not bounded by the model), the counter
`next_index`, and `written`, a record of the indices assigned so far, in the order of the
assignments; the record is not in the source and is kept to state which cells are
written. -/
structure FillState where
  the_array : Nat → String
  next_index : Nat
  written : List Nat

/-- The private `inorderFillArray(thisNode, the_array, next_index)`: the array and the
counter afterwards. -/
def inorderFillArray : TreeNode → FillState → FillState
  | null, s => s
  | node l d r, s =>
    let s1 := if l.isNull then s else inorderFillArray l s
    let s2 : FillState :=
      ⟨fun i => if i = s1.next_index then d else s1.the_array i, s1.next_index + 1,
        s1.written ++ [s1.next_index]⟩
    if r.isNull then s2 else inorderFillArray r s2

/-- Member function `inorderTraversalFillArray(the_array, size)`: `Except.error` is the
thrown `logic_error`; the second component is the array (with `index` and the record of
the assignments) after the call. -/
def inorderTraversalFillArray (bst : BinarySearchTree) (the_array : Nat → String)
    (size : Int) : Except String Unit × FillState :=
  let index := 0
  if size ≠ (bst.countNodes : Int) then (Except.error SIZE_MESSAGE, ⟨the_array, index, []⟩)
  else (Except.ok (), inorderFillArray bst.root ⟨the_array, index, []⟩)

/-- The tree after the calls `insertNode(k)` for the keys of `ks` in order, made by a
caller that stops at the first exception. -/
def insertAll : BinarySearchTree → List String → Except String BinarySearchTree
  | bst, [] => Except.ok bst
  | bst, k :: ks =>
    match bst.insertNode k with
    | (Except.ok _, bst1) => insertAll bst1 ks
    | (Except.error e, _) => Except.error e

end BinarySearchTree

/-! ## Auxiliary definitions used to state and prove the properties -/

namespace TreeNode

/-- The links followed by the loop of `findNode` for `key`, down to the node it stops at
(a node holding `key`, or the absent link it falls off). -/
def searchPath (key : String) : TreeNode → List Dir
  | null => []
  | node l d r =>
    if d = key then []
    else if strLt key d then Dir.L :: searchPath key l
    else Dir.R :: searchPath key r

/-- The links followed by the loop of `deleteNode` that walks to the rightmost node. -/
def rightSpine : TreeNode → List Dir
  | null => []
  | node _ _ r => if r.isNull then [] else Dir.R :: rightSpine r

/-- The key of the rightmost node. -/
def maxKey : TreeNode → String
  | null => ""
  | node _ d r => if r.isNull then d else maxKey r

/-- The left subtree of the rightmost node. -/
def maxLeft : TreeNode → TreeNode
  | null => null
  | node l _ r => if r.isNull then l else maxLeft r

/-- The tree without its rightmost node and without all that node owns. -/
def cutMax : TreeNode → TreeNode
  | null => null
  | node l d r => if r.isNull then null else node l d (cutMax r)

/-- What `deleteNode` puts in the place of the matched node. -/
def removeNode : TreeNode → TreeNode
  | null => null
  | node l _ r =>
    if l.isNull then r
    else if r.isNull then l
    else node (cutMax l) (maxKey l) r

/-- The tree after `deleteNode(key)`, by recursion on the tree. -/
def delRec (key : String) : TreeNode → TreeNode
  | null => null
  | node l d r =>
    if d = key then removeNode (node l d r)
    else if strLt key d then node (delRec key l) d r
    else node l d (delRec key r)

/-- The tree after a successful `insertNode(key)`, by recursion on the tree. -/
def insRec (key : String) : TreeNode → TreeNode
  | null => node null key null
  | node l d r =>
    if d = key then node l d r
    else if strLt key d then node (insRec key l) d r
    else node l d (insRec key r)

end TreeNode

namespace TreeNode

/-- A check of the BST property that evaluates. -/
def isBSTb : TreeNode → Bool
  | null => true
  | node l d r =>
    (inorderKeys l).all (fun k => strLt k d) && (inorderKeys r).all (fun k => strLt d k)
      && isBSTb l && isBSTb r

end TreeNode

namespace BinarySearchTree

open TreeNode

/-- The text after the entries `key` followed by a tab, one per key of `ks`, have been
appended to `out`, as `inorder` appends them. -/
def renderTab (out : String) (ks : List String) : String :=
  ks.foldl (fun o k => o ++ (k ++ "\t")) out

/-- The text after the entries `[key]` followed by a blank, one per key of `ks`, have been
appended to `out`, as `preorder` and `postorder` append them. -/
def renderBracket (out : String) (ks : List String) : String :=
  ks.foldl (fun o k => o ++ ("[" ++ k ++ "] ")) out

/-- The tree of the concrete scenario, built by inserting "M", "D", "P", "A", "F", "N", "Z"
in this order into an empty tree. -/
def scenarioTree : BinarySearchTree :=
  ⟨node (node (node null "A" null) "D" (node null "F" null)) "M"
    (node (node null "N" null) "P" (node null "Z" null))⟩

/-- The text `t` occurs in the text `s`, as a run of consecutive characters. -/
def containsText (s t : String) : Prop := t.data <:+: s.data

/-- A call that may change the tree. -/
inductive Op where
  | insert (key : String) : Op
  | delete (key : String) : Op

/-- The tree after one call; a call that throws or returns the sentinel still leaves a
tree behind, the one it had reached. -/
def step (bst : BinarySearchTree) : Op → BinarySearchTree
  | Op.insert key => (bst.insertNode key).2
  | Op.delete key => (bst.deleteNode key).2

/-- The tree after a sequence of calls. -/
def run (bst : BinarySearchTree) (ops : List Op) : BinarySearchTree :=
  ops.foldl step bst

end BinarySearchTree

open TreeNode BinarySearchTree

/-! ## The string order -/

theorem strLt_iff (a b : String) : strLt a b = true ↔ a < b := by
  unfold strLt
  rw [decide_eq_true_iff, String.lt_iff_toList_lt]
  rfl

theorem strLt_false_iff (a b : String) : strLt a b = false ↔ b ≤ a := by
  rw [← not_lt, ← strLt_iff]
  simp

/-! ## Positions -/

namespace TreeNode

@[simp] theorem sub_nil (t : TreeNode) : t.sub [] = t := by
  cases t <;> rfl

@[simp] theorem sub_null (p : List Dir) : null.sub p = null := by
  cases p <;> rfl

@[simp] theorem sub_node_L (l r : TreeNode) (d : String) (p : List Dir) :
    (node l d r).sub (Dir.L :: p) = l.sub p := rfl

@[simp] theorem sub_node_R (l r : TreeNode) (d : String) (p : List Dir) :
    (node l d r).sub (Dir.R :: p) = r.sub p := rfl

@[simp] theorem modify_nil (f : TreeNode → TreeNode) (t : TreeNode) : t.modify f [] = f t := by
  cases t <;> rfl

@[simp] theorem modify_null_cons (f : TreeNode → TreeNode) (x : Dir) (p : List Dir) :
    null.modify f (x :: p) = null := rfl

@[simp] theorem modify_node_L (f : TreeNode → TreeNode) (l r : TreeNode) (d : String)
    (p : List Dir) : (node l d r).modify f (Dir.L :: p) = node (l.modify f p) d r := rfl

@[simp] theorem modify_node_R (f : TreeNode → TreeNode) (l r : TreeNode) (d : String)
    (p : List Dir) : (node l d r).modify f (Dir.R :: p) = node l d (r.modify f p) := rfl

theorem isNull_eq_true_iff (t : TreeNode) : t.isNull = true ↔ t = null := by
  cases t <;> simp [isNull]

theorem isNull_eq_false_iff (t : TreeNode) : t.isNull = false ↔ t ≠ null := by
  cases t <;> simp [isNull]

theorem sub_append (t : TreeNode) (p q : List Dir) : t.sub (p ++ q) = (t.sub p).sub q := by
  induction p generalizing t with
  | nil => simp
  | cons x p ih =>
    cases t with
    | null => simp
    | node l d r => cases x <;> simp [ih]

theorem modify_append (f : TreeNode → TreeNode) (t : TreeNode) (p q : List Dir) :
    t.modify f (p ++ q) = t.modify (fun s => s.modify f q) p := by
  induction p generalizing t with
  | nil => simp
  | cons x p ih =>
    cases t with
    | null => simp
    | node l d r => cases x <;> simp [ih]

theorem modify_congr_sub (f g : TreeNode → TreeNode) (t : TreeNode) (p : List Dir)
    (h : f (t.sub p) = g (t.sub p)) : t.modify f p = t.modify g p := by
  induction p generalizing t with
  | nil => simpa using h
  | cons x p ih =>
    cases t with
    | null => simp
    | node l d r =>
      cases x
      · simp only [modify_node_L]; rw [ih l (by simpa using h)]
      · simp only [modify_node_R]; rw [ih r (by simpa using h)]

theorem modify_modify (f g : TreeNode → TreeNode) (t : TreeNode) (p : List Dir) :
    (t.modify f p).modify g p = t.modify (fun s => g (f s)) p := by
  induction p generalizing t with
  | nil => simp
  | cons x p ih =>
    cases t with
    | null => simp
    | node l d r => cases x <;> simp [ih]

theorem sub_modify (f : TreeNode → TreeNode) (t : TreeNode) (p : List Dir)
    (h : t.sub p ≠ null) : (t.modify f p).sub p = f (t.sub p) := by
  induction p generalizing t with
  | nil => simp
  | cons x p ih =>
    cases t with
    | null => simp at h
    | node l d r =>
      cases x
      · simpa using ih l (by simpa using h)
      · simpa using ih r (by simpa using h)

theorem setLeft_eq (t : TreeNode) (p : List Dir) (c : TreeNode) :
    t.setLeft p c = t.modify (fun _ => c) (p ++ [Dir.L]) := by
  rw [modify_append]
  unfold setLeft
  congr 1
  funext n
  cases n <;> simp

theorem setRight_eq (t : TreeNode) (p : List Dir) (c : TreeNode) :
    t.setRight p c = t.modify (fun _ => c) (p ++ [Dir.R]) := by
  rw [modify_append]
  unfold setRight
  congr 1
  funext n
  cases n <;> simp

theorem getLeft_ne_right (t : TreeNode) (p : List Dir) :
    t.getLeft p ≠ some (p ++ [Dir.R]) := by
  unfold getLeft
  split
  · simp
  · split <;> simp

theorem getLeft_eq_left (t : TreeNode) (p : List Dir) (h : t.sub (p ++ [Dir.L]) ≠ null) :
    t.getLeft p = some (p ++ [Dir.L]) := by
  rw [sub_append] at h
  unfold getLeft
  split
  · rename_i heq; rw [heq] at h; simp at h
  · rename_i l d r heq
    rw [heq] at h
    simp only [sub_node_L, sub_nil] at h
    simp [(isNull_eq_false_iff l).2 h]

/-- Re-linking through the parent, as `deleteNode` does it, replaces the node at the
child position. -/
theorem relink_eq (t : TreeNode) (pp : List Dir) (x : Dir) (c : TreeNode)
    (h : t.sub (pp ++ [x]) ≠ null) :
    (if t.getLeft pp = some (pp ++ [x]) then t.setLeft pp c else t.setRight pp c)
      = t.modify (fun _ => c) (pp ++ [x]) := by
  cases x with
  | L => rw [if_pos (getLeft_eq_left t pp h), setLeft_eq]
  | R => rw [if_neg (getLeft_ne_right t pp), setRight_eq]

end TreeNode

/-! ## The loops, as positions -/

namespace TreeNode

theorem dropLast_cons_eq (x : Dir) (q : List Dir) :
    (x :: q).dropLast = if q = [] then [] else x :: q.dropLast := by
  cases q <;> simp

theorem searchPath_sub (key : String) (t : TreeNode) :
    t.sub (searchPath key t) = null ∨ ∃ l r, t.sub (searchPath key t) = node l key r := by
  induction t with
  | null => left; simp [searchPath]
  | node l d r ihl ihr =>
    unfold searchPath
    by_cases h : d = key
    · right; subst h; exact ⟨l, r, by simp⟩
    · by_cases h2 : strLt key d = true
      · simpa [h, h2] using ihl
      · simpa [h, h2] using ihr

theorem searchPath_last (key : String) (t : TreeNode) (pp : List Dir) (x : Dir)
    (h : searchPath key t = pp ++ [x]) :
    ∃ l d r, t.sub pp = node l d r ∧ d ≠ key ∧ (x = Dir.L ↔ strLt key d = true) := by
  induction t generalizing pp with
  | null => simp [searchPath] at h
  | node l d r ihl ihr =>
    unfold searchPath at h
    by_cases h1 : d = key
    · simp [h1] at h
    · by_cases h2 : strLt key d = true
      · simp only [h1, h2, Bool.false_eq_true, if_false, if_true] at h
        cases pp with
        | nil =>
          simp only [List.nil_append, List.cons.injEq] at h
          exact ⟨l, d, r, by simp, h1, by simp [← h.1, h2]⟩
        | cons y pp =>
          simp only [List.cons_append, List.cons.injEq] at h
          obtain ⟨hy, hp⟩ := h
          subst hy
          simpa using ihl pp hp
      · simp only [h1, h2, Bool.false_eq_true, if_false] at h
        cases pp with
        | nil =>
          simp only [List.nil_append, List.cons.injEq] at h
          exact ⟨l, d, r, by simp, h1, by simp [← h.1, h2]⟩
        | cons y pp =>
          simp only [List.cons_append, List.cons.injEq] at h
          obtain ⟨hy, hp⟩ := h
          subst hy
          simpa using ihr pp hp

theorem rightSpine_sub (t : TreeNode) (h : t ≠ null) : t.sub (rightSpine t) ≠ null := by
  induction t with
  | null => exact absurd rfl h
  | node l d r _ ihr =>
    unfold rightSpine
    by_cases hr : r.isNull = true
    · simp [hr]
    · simp only [hr, Bool.false_eq_true, if_false, sub_node_R]
      exact ihr (by simpa [isNull_eq_true_iff] using hr)

theorem rightSpine_last (t : TreeNode) (pp : List Dir) (x : Dir)
    (h : rightSpine t = pp ++ [x]) : x = Dir.R := by
  induction t generalizing pp with
  | null => simp [rightSpine] at h
  | node l d r _ ihr =>
    unfold rightSpine at h
    by_cases hr : r.isNull = true
    · simp [hr] at h
    · simp only [hr, Bool.false_eq_true, if_false] at h
      cases pp with
      | nil =>
        simp only [List.nil_append, List.cons.injEq] at h
        exact h.1.symm
      | cons y pp =>
        simp only [List.cons_append, List.cons.injEq] at h
        exact ihr pp h.2

theorem getData_rightSpine (t : TreeNode) : t.getData (rightSpine t) = maxKey t := by
  induction t with
  | null => simp [getData, rightSpine, maxKey]
  | node l d r _ ihr =>
    unfold rightSpine maxKey
    by_cases hr : r.isNull = true
    · simp [hr, getData]
    · simp only [hr, Bool.false_eq_true, if_false]
      simpa [getData] using ihr

theorem modify_rightSpine (t : TreeNode) :
    t.modify (fun _ => null) (rightSpine t) = cutMax t := by
  induction t with
  | null => simp [rightSpine, cutMax]
  | node l d r _ ihr =>
    unfold rightSpine cutMax
    by_cases hr : r.isNull = true
    · simp [hr]
    · simp [hr, ihr]

theorem modify_searchPath_insRec (key : String) (t : TreeNode)
    (h : t.sub (searchPath key t) = null) :
    t.modify (fun _ => node null key null) (searchPath key t) = insRec key t := by
  induction t with
  | null => simp [searchPath, insRec]
  | node l d r ihl ihr =>
    unfold searchPath insRec
    unfold searchPath at h
    by_cases h1 : d = key
    · simp [h1] at h
    · by_cases h2 : strLt key d = true
      · simp only [h1, h2, Bool.false_eq_true, if_false, if_true, modify_node_L, sub_node_L] at h ⊢
        rw [ihl h]
      · simp only [h1, h2, Bool.false_eq_true, if_false, modify_node_R, sub_node_R] at h ⊢
        rw [ihr h]

theorem modify_searchPath_delRec (key : String) (t : TreeNode) :
    t.modify removeNode (searchPath key t) = delRec key t := by
  induction t with
  | null => simp [searchPath, delRec, removeNode]
  | node l d r ihl ihr =>
    unfold searchPath delRec
    by_cases h1 : d = key
    · simp [h1]
    · by_cases h2 : strLt key d = true
      · simp [h1, h2, ihl]
      · simp [h1, h2, ihr]

end TreeNode

namespace BinarySearchTree

theorem findLoop_eq (key : String) (cur : TreeNode) (p : List Dir) (par : Ptr) :
    findLoop key cur p par =
      (if (cur.sub (searchPath key cur)).isNull then none else some (p ++ searchPath key cur),
       if searchPath key cur = [] then par
       else some (p ++ (searchPath key cur).dropLast)) := by
  induction cur generalizing p par with
  | null => simp [findLoop, searchPath, isNull]
  | node l d r ihl ihr =>
    unfold findLoop searchPath
    by_cases h1 : d = key
    · simp [h1, isNull]
    · by_cases h2 : strLt key d = true
      · simp only [h1, h2, Bool.false_eq_true, if_false, if_true, ihl, sub_node_L, dropLast_cons_eq]
        by_cases hq : searchPath key l = [] <;> simp [hq]
      · simp only [h1, h2, Bool.false_eq_true, if_false, ihr, sub_node_R, dropLast_cons_eq]
        by_cases hq : searchPath key r = [] <;> simp [hq]

theorem findNode_eq (bst : BinarySearchTree) (key : String) :
    bst.findNode key =
      (if (bst.root.sub (searchPath key bst.root)).isNull then none
        else some (searchPath key bst.root),
       if searchPath key bst.root = [] then none
       else some (searchPath key bst.root).dropLast) := by
  unfold findNode
  simp [findLoop_eq]

theorem rightmostLoop_eq (cur : TreeNode) (tp tpar : List Dir) :
    rightmostLoop cur tp tpar =
      (tp ++ rightSpine cur,
       if rightSpine cur = [] then tpar else tp ++ (rightSpine cur).dropLast) := by
  induction cur generalizing tp tpar with
  | null => simp [rightmostLoop, rightSpine]
  | node l d r _ ihr =>
    unfold rightmostLoop rightSpine
    by_cases hr : r.isNull = true
    · simp [hr]
    · simp only [hr, Bool.false_eq_true, if_false, ihr, dropLast_cons_eq]
      by_cases hq : rightSpine r = [] <;> simp [hq]

end BinarySearchTree

/-! ## `insertNode` and `deleteNode` by recursion on the tree -/

namespace BinarySearchTree

theorem dropLast_append_getLast_eq (q : List Dir) (h : q ≠ []) :
    ∃ x, q = q.dropLast ++ [x] :=
  ⟨q.getLast h, (List.dropLast_append_getLast h).symm⟩

theorem insertNode_eq (bst : BinarySearchTree) (key : String) :
    bst.insertNode key =
      if (bst.root.sub (searchPath key bst.root)).isNull then
        (Except.ok (), ⟨insRec key bst.root⟩)
      else (Except.error DUPLICATE_MESSAGE, bst) := by
  unfold insertNode
  simp only [findNode_eq]
  cases hnull : (bst.root.sub (searchPath key bst.root)).isNull with
  | false => simp
  | true =>
    have hsub : bst.root.sub (searchPath key bst.root) = null :=
      (isNull_eq_true_iff _).1 hnull
    simp only [if_true, ne_eq, not_true_eq_false, if_false]
    by_cases hq : searchPath key bst.root = []
    · simp only [hq, if_true]
      rw [hq, sub_nil] at hsub
      rw [hsub]
      rfl
    · simp only [hq, if_false]
      obtain ⟨x, hx⟩ := dropLast_append_getLast_eq _ hq
      obtain ⟨l, d, r, hpp, _, hdir⟩ := searchPath_last key bst.root _ x hx
      have hd : bst.root.getData (searchPath key bst.root).dropLast = d := by
        simp [getData, hpp]
      rw [hd, setLeft_eq, setRight_eq, ← modify_searchPath_insRec key bst.root hsub]
      cases x with
      | L =>
        rw [if_pos (hdir.1 rfl), ← hx]
      | R =>
        have : ¬ strLt key d = true := fun h => by simpa using hdir.2 h
        rw [if_neg this, ← hx]

theorem ite_pair_mk (c : Prop) [Decidable c] (rv : String) (x y : TreeNode) :
    (if c then (rv, (⟨x⟩ : BinarySearchTree)) else (rv, ⟨y⟩))
      = (rv, ⟨if c then x else y⟩) := by
  split <;> rfl

/-- The three-way case distinction of `deleteNode` (root, left child of the parent, right
child of the parent) puts `c` in the place of the node at `q`. -/
theorem splice_eq (bst : BinarySearchTree) (q : List Dir) (c : TreeNode)
    (h : bst.root.sub q ≠ null) :
    (if decide (some q = bst.rootPtr) = true then c
      else if bst.root.getLeft q.dropLast = some q then bst.root.setLeft q.dropLast c
      else bst.root.setRight q.dropLast c)
      = bst.root.modify (fun _ => c) q := by
  have hroot : bst.rootPtr = some [] := by
    unfold rootPtr
    have : bst.root ≠ null := fun h0 => h (by rw [h0]; simp)
    simp [(isNull_eq_false_iff _).2 this]
  by_cases hq : q = []
  · subst hq
    simp [hroot]
  · obtain ⟨x, hx⟩ := dropLast_append_getLast_eq q hq
    have h1 : ¬ (decide (some q = bst.rootPtr) = true) := by
      simp [hroot, hq]
    rw [if_neg h1]
    have := relink_eq bst.root q.dropLast x c (by rw [← hx]; exact h)
    rw [← hx] at this
    exact this

theorem modify_modify_append (f g : TreeNode → TreeNode) (t : TreeNode) (p q : List Dir) :
    (t.modify f p).modify g (p ++ q) = t.modify (fun s => (f s).modify g q) p := by
  rw [modify_append, modify_modify]

/-- The two-children branch of `deleteNode`: the matched node takes the key of the
rightmost node of its left subtree, and the link to that node is cleared. -/
theorem twoChildren_eq (root : TreeNode) (q : List Dir) (l r : TreeNode) (key : String)
    (hnode : root.sub q = node l key r) (hl : l.isNull = false) (hr : r.isNull = false) :
    (if (root.setData q (root.getData
            (rightmostLoop (root.sub (q ++ [Dir.L])) (q ++ [Dir.L]) q).1)).getLeft
          (rightmostLoop (root.sub (q ++ [Dir.L])) (q ++ [Dir.L]) q).2 =
          some (rightmostLoop (root.sub (q ++ [Dir.L])) (q ++ [Dir.L]) q).1 then
        (root.setData q (root.getData
            (rightmostLoop (root.sub (q ++ [Dir.L])) (q ++ [Dir.L]) q).1)).setLeft
          (rightmostLoop (root.sub (q ++ [Dir.L])) (q ++ [Dir.L]) q).2 null
      else
        (root.setData q (root.getData
            (rightmostLoop (root.sub (q ++ [Dir.L])) (q ++ [Dir.L]) q).1)).setRight
          (rightmostLoop (root.sub (q ++ [Dir.L])) (q ++ [Dir.L]) q).2 null)
      = root.modify removeNode q := by
  have hsubL : root.sub (q ++ [Dir.L]) = l := by simp [sub_append, hnode]
  have hlne : l ≠ null := (isNull_eq_false_iff l).1 hl
  rw [hsubL, rightmostLoop_eq]
  simp only
  have hkey : root.getData (q ++ [Dir.L] ++ rightSpine l) = maxKey l := by
    have := getData_rightSpine l
    simp only [getData, sub_append, hnode, sub_node_L, sub_nil] at this ⊢
    exact this
  rw [hkey]
  have hq : root.sub q ≠ null := by rw [hnode]; simp
  have hsub1 : (root.setData q (maxKey l)).sub (q ++ [Dir.L] ++ rightSpine l) ≠ null := by
    unfold setData
    rw [List.append_assoc, sub_append, sub_modify _ _ _ hq, hnode]
    simpa using rightSpine_sub l hlne
  have hfinal : (root.setData q (maxKey l)).modify (fun _ => null)
      (q ++ [Dir.L] ++ rightSpine l) = root.modify removeNode q := by
    unfold setData
    rw [List.append_assoc, modify_modify_append]
    apply modify_congr_sub
    rw [hnode]
    simp [removeNode, hl, hr, modify_rightSpine]
  by_cases hrs : rightSpine l = []
  · simp only [hrs, if_true, List.append_nil] at hsub1 hfinal ⊢
    rw [relink_eq _ q Dir.L null hsub1, hfinal]
  · obtain ⟨x, hx⟩ := dropLast_append_getLast_eq _ hrs
    have hxR : x = Dir.R := rightSpine_last l _ x hx
    subst hxR
    have hsplit : q ++ [Dir.L] ++ rightSpine l
        = (q ++ [Dir.L] ++ (rightSpine l).dropLast) ++ [Dir.R] := by
      rw [List.append_assoc _ _ [Dir.R], ← hx]
    simp only [hrs, if_false]
    rw [hsplit] at hsub1 hfinal ⊢
    rw [relink_eq _ _ Dir.R null hsub1, hfinal]

theorem deleteNode_eq (bst : BinarySearchTree) (key : String) :
    bst.deleteNode key =
      if (bst.root.sub (searchPath key bst.root)).isNull then (NOT_FOUND_MESSAGE, bst)
      else (key, ⟨delRec key bst.root⟩) := by
  unfold deleteNode
  simp only [findNode_eq]
  cases hnull : (bst.root.sub (searchPath key bst.root)).isNull with
  | true => simp
  | false =>
    have hsub : bst.root.sub (searchPath key bst.root) ≠ null :=
      (isNull_eq_false_iff _).1 hnull
    obtain ⟨l, r, hnode⟩ := (searchPath_sub key bst.root).resolve_left hsub
    generalize hqdef : searchPath key bst.root = q at *
    have hpp : (if q = [] then (none : Ptr) else some q.dropLast).getD [] = q.dropLast := by
      by_cases hq : q = [] <;> simp [hq]
    have hrv : bst.root.getData q = key := by simp [getData, hnode]
    have hL : bst.root.getLeft q = if l.isNull then none else some (q ++ [Dir.L]) := by
      simp [getLeft, hnode]
    have hR : bst.root.getRight q = if r.isNull then none else some (q ++ [Dir.R]) := by
      simp [getRight, hnode]
    simp only [Bool.false_eq_true, if_false, hpp, hrv, hL, hR, ite_pair_mk]
    rw [← modify_searchPath_delRec, hqdef]
    cases hl : l.isNull with
    | true =>
      cases hr : r.isNull with
      | true =>
        simp only [if_true, and_self, splice_eq bst q _ hsub]
        rw [modify_congr_sub _ removeNode]
        simp [hnode, removeNode, hl]
        exact ((isNull_eq_true_iff _).1 hr).symm
      | false =>
        simp only [if_true, Bool.false_eq_true, if_false, ne_eq, not_true_eq_false,
          reduceCtorEq, not_false_eq_true, and_false, false_and, and_self, deref,
          splice_eq bst q _ hsub]
        rw [modify_congr_sub _ removeNode]
        simp [hnode, removeNode, hl, sub_append]
    | false =>
      cases hr : r.isNull with
      | true =>
        simp only [if_true, Bool.false_eq_true, if_false, ne_eq, not_true_eq_false,
          reduceCtorEq, not_false_eq_true, and_false, false_and, and_self, deref,
          splice_eq bst q _ hsub]
        rw [modify_congr_sub _ removeNode]
        simp [hnode, removeNode, hl, hr, sub_append]
      | false =>
        simp only [Bool.false_eq_true, if_false, ne_eq, not_true_eq_false,
          reduceCtorEq, not_false_eq_true, and_false, false_and, and_self, deref]
        rw [twoChildren_eq bst.root q l r key hnode hl hr]

end BinarySearchTree

/-! ## Keys and the BST property -/

namespace TreeNode

@[simp] theorem inorderKeys_null : inorderKeys null = [] := rfl

@[simp] theorem inorderKeys_node (l r : TreeNode) (d : String) :
    inorderKeys (node l d r) = inorderKeys l ++ d :: inorderKeys r := rfl

theorem isBST_iff_sorted (t : TreeNode) :
    IsBST t ↔ (inorderKeys t).Pairwise (· < ·) := by
  induction t with
  | null => simp [IsBST]
  | node l d r ihl ihr =>
    simp only [IsBST, inorderKeys_node, List.pairwise_append, List.pairwise_cons,
      List.mem_cons, ihl, ihr]
    constructor
    · rintro ⟨h1, h2, h3, h4⟩
      refine ⟨h3, ⟨h2, h4⟩, ?_⟩
      intro a ha b hb
      rcases hb with rfl | hb
      · exact h1 a ha
      · exact lt_trans (h1 a ha) (h2 b hb)
    · rintro ⟨h3, ⟨h2, h4⟩, h5⟩
      exact ⟨fun a ha => h5 a ha d (Or.inl rfl), h2, h3, h4⟩

theorem mem_of_found (key : String) (t : TreeNode)
    (h : t.sub (searchPath key t) ≠ null) : key ∈ inorderKeys t := by
  induction t with
  | null => simp [searchPath] at h
  | node l d r ihl ihr =>
    unfold searchPath at h
    by_cases h1 : d = key
    · simp [h1]
    · cases h2 : strLt key d with
      | true =>
        simp only [h1, h2, if_false, if_true, sub_node_L] at h
        simp [ihl h]
      | false =>
        simp only [h1, h2, Bool.false_eq_true, if_false, sub_node_R] at h
        simp [ihr h]

theorem found_of_mem (key : String) (t : TreeNode) (hb : IsBST t)
    (h : key ∈ inorderKeys t) : t.sub (searchPath key t) ≠ null := by
  induction t with
  | null => simp at h
  | node l d r ihl ihr =>
    obtain ⟨h1, h2, h3, h4⟩ := hb
    unfold searchPath
    by_cases hd : d = key
    · simp [hd]
    · simp only [inorderKeys_node, List.mem_append, List.mem_cons] at h
      cases hlt : strLt key d with
      | true =>
        simp only [hd, if_false, if_true, sub_node_L]
        have hlt2 : key < d := (strLt_iff _ _).1 hlt
        rcases h with h | h | h
        · exact ihl h3 h
        · exact absurd h.symm hd
        · exact absurd (h2 key h) (lt_asymm hlt2)
      | false =>
        simp only [hd, Bool.false_eq_true, if_false, sub_node_R]
        have hle : d ≤ key := (strLt_false_iff _ _).1 hlt
        rcases h with h | h | h
        · exact absurd (h1 key h) (not_lt.2 hle)
        · exact absurd h.symm hd
        · exact ihr h4 h

theorem found_iff_mem (key : String) (t : TreeNode) (hb : IsBST t) :
    (t.sub (searchPath key t)).isNull = false ↔ key ∈ inorderKeys t := by
  rw [isNull_eq_false_iff]
  exact ⟨mem_of_found key t, found_of_mem key t hb⟩

theorem not_found_iff_not_mem (key : String) (t : TreeNode) (hb : IsBST t) :
    (t.sub (searchPath key t)).isNull = true ↔ key ∉ inorderKeys t := by
  rw [← found_iff_mem key t hb]
  simp

/-- The keys after a successful insertion: the new key sits between the smaller and the
larger keys. -/
theorem inorderKeys_insRec (key : String) (t : TreeNode) (hb : IsBST t)
    (h : key ∉ inorderKeys t) :
    ∃ pre post, inorderKeys t = pre ++ post ∧
      inorderKeys (insRec key t) = pre ++ key :: post ∧
      (∀ x ∈ pre, x < key) ∧ (∀ x ∈ post, key < x) := by
  induction t with
  | null => exact ⟨[], [], by simp [insRec]⟩
  | node l d r ihl ihr =>
    obtain ⟨h1, h2, h3, h4⟩ := hb
    simp only [inorderKeys_node, List.mem_append, List.mem_cons, not_or] at h
    obtain ⟨hl, hd, hr⟩ := h
    have hd2 : ¬ d = key := fun e => hd e.symm
    unfold insRec
    cases hlt : strLt key d with
    | true =>
      have hlt2 : key < d := (strLt_iff _ _).1 hlt
      obtain ⟨pre, post, e1, e2, e3, e4⟩ := ihl h3 hl
      refine ⟨pre, post ++ d :: inorderKeys r, ?_, ?_, e3, ?_⟩
      · simp [e1]
      · simp [hd2, e2]
      · intro x hx
        simp only [List.mem_append, List.mem_cons] at hx
        rcases hx with hx | rfl | hx
        · exact e4 x hx
        · exact hlt2
        · exact lt_trans hlt2 (h2 x hx)
    | false =>
      have hle : d ≤ key := (strLt_false_iff _ _).1 hlt
      have hlt2 : d < key := lt_of_le_of_ne hle hd2
      obtain ⟨pre, post, e1, e2, e3, e4⟩ := ihr h4 hr
      refine ⟨inorderKeys l ++ d :: pre, post, ?_, ?_, ?_, e4⟩
      · simp [e1]
      · simp [hd2, e2]
      · intro x hx
        simp only [List.mem_append, List.mem_cons] at hx
        rcases hx with hx | rfl | hx
        · exact lt_trans (h1 x hx) hlt2
        · exact hlt2
        · exact e3 x hx

theorem insRec_of_mem (key : String) (t : TreeNode)
    (h : t.sub (searchPath key t) ≠ null) : insRec key t = t := by
  induction t with
  | null => simp [searchPath] at h
  | node l d r ihl ihr =>
    unfold searchPath at h
    unfold insRec
    by_cases h1 : d = key
    · simp [h1]
    · cases h2 : strLt key d with
      | true =>
        simp only [h1, h2, if_false, if_true, sub_node_L] at h
        simp [h1, ihl h]
      | false =>
        simp only [h1, h2, Bool.false_eq_true, if_false, sub_node_R] at h
        simp [h1, ihr h]

theorem isBST_insRec (key : String) (t : TreeNode) (hb : IsBST t) : IsBST (insRec key t) := by
  by_cases h : key ∈ inorderKeys t
  · rw [insRec_of_mem key t (found_of_mem key t hb h)]
    exact hb
  · obtain ⟨pre, post, e1, e2, e3, e4⟩ := inorderKeys_insRec key t hb h
    rw [isBST_iff_sorted] at hb ⊢
    rw [e1, List.pairwise_append] at hb
    rw [e2, List.pairwise_append, List.pairwise_cons]
    refine ⟨hb.1, ⟨e4, hb.2.1⟩, ?_⟩
    intro a ha b hb2
    rcases List.mem_cons.1 hb2 with rfl | hb2
    · exact e3 a ha
    · exact hb.2.2 a ha b hb2

/-- The keys of a non-empty tree: those that stay after `cutMax`, those owned by the
rightmost node, and the key of the rightmost node. -/
theorem inorderKeys_cutMax (t : TreeNode) (h : t ≠ null) :
    inorderKeys t = inorderKeys (cutMax t) ++ (inorderKeys (maxLeft t) ++ [maxKey t]) := by
  induction t with
  | null => exact absurd rfl h
  | node l d r _ ihr =>
    unfold cutMax maxLeft maxKey
    cases hr : r.isNull with
    | true =>
      have : r = null := (isNull_eq_true_iff r).1 hr
      simp [this]
    | false =>
      have : r ≠ null := (isNull_eq_false_iff r).1 hr
      simp only [Bool.false_eq_true, if_false, inorderKeys_node]
      rw [ihr this]
      simp

theorem inorderKeys_removeNode_sublist (l r : TreeNode) (d : String) :
    (inorderKeys (removeNode (node l d r))).Sublist (inorderKeys (node l d r)) := by
  unfold removeNode
  cases hl : l.isNull with
  | true =>
    simp only [hl, if_true, inorderKeys_node]
    exact List.Sublist.trans (List.sublist_cons_self d _) (List.sublist_append_right _ _)
  | false =>
    cases hr : r.isNull with
    | true =>
      simp only [hl, hr, Bool.false_eq_true, if_false, if_true, inorderKeys_node]
      exact List.sublist_append_left _ _
    | false =>
      have hl2 : l ≠ null := (isNull_eq_false_iff l).1 hl
      simp only [hl, hr, Bool.false_eq_true, if_false, inorderKeys_node]
      rw [inorderKeys_cutMax l hl2]
      rw [List.append_assoc]
      apply List.Sublist.append (List.Sublist.refl _)
      have e1 : ([maxKey l]).Sublist (inorderKeys (maxLeft l) ++ [maxKey l]) :=
        List.sublist_append_right _ _
      have e2 : (inorderKeys r).Sublist (d :: inorderKeys r) := List.sublist_cons_self _ _
      exact List.Sublist.append e1 e2

theorem inorderKeys_delRec_sublist (key : String) (t : TreeNode) :
    (inorderKeys (delRec key t)).Sublist (inorderKeys t) := by
  induction t with
  | null => simp [delRec]
  | node l d r ihl ihr =>
    unfold delRec
    by_cases h1 : d = key
    · simp only [h1, if_true]
      exact inorderKeys_removeNode_sublist l r key
    · cases h2 : strLt key d with
      | true =>
        simp only [h1, if_false, if_true, inorderKeys_node]
        exact List.Sublist.append ihl (List.Sublist.refl _)
      | false =>
        simp only [h1, Bool.false_eq_true, if_false, inorderKeys_node]
        exact List.Sublist.append (List.Sublist.refl _) (List.Sublist.cons₂ d ihr)

theorem isBST_delRec (key : String) (t : TreeNode) (hb : IsBST t) : IsBST (delRec key t) := by
  rw [isBST_iff_sorted] at hb ⊢
  exact List.Pairwise.sublist (inorderKeys_delRec_sublist key t) hb

theorem mem_removeNode (l r : TreeNode) (d x : String)
    (h : x ∈ inorderKeys (removeNode (node l d r))) :
    x ∈ inorderKeys l ∨ x ∈ inorderKeys r := by
  unfold removeNode at h
  cases hl : l.isNull with
  | true => right; simpa [hl] using h
  | false =>
    cases hr : r.isNull with
    | true => left; simpa [hl, hr] using h
    | false =>
      have hl2 : l ≠ null := (isNull_eq_false_iff l).1 hl
      simp only [hl, hr, Bool.false_eq_true, if_false, inorderKeys_node, List.mem_append,
        List.mem_cons] at h
      rw [inorderKeys_cutMax l hl2]
      simp only [List.mem_append, List.mem_singleton]
      tauto

theorem not_mem_delRec (key : String) (t : TreeNode) (hb : IsBST t) :
    key ∉ inorderKeys (delRec key t) := by
  induction t with
  | null => simp [delRec]
  | node l d r ihl ihr =>
    obtain ⟨h1, h2, h3, h4⟩ := hb
    unfold delRec
    by_cases hd : d = key
    · subst hd
      simp only [if_true]
      intro hmem
      rcases mem_removeNode l r d d hmem with h | h
      · exact lt_irrefl _ (h1 d h)
      · exact lt_irrefl _ (h2 d h)
    · cases hlt : strLt key d with
      | true =>
        have hlt2 : key < d := (strLt_iff _ _).1 hlt
        simp only [hd, if_false, if_true, inorderKeys_node, List.mem_append, List.mem_cons,
          not_or]
        exact ⟨ihl h3, fun e => hd e.symm, fun h => lt_asymm hlt2 (h2 key h)⟩
      | false =>
        have hle : d ≤ key := (strLt_false_iff _ _).1 hlt
        simp only [hd, Bool.false_eq_true, if_false, inorderKeys_node, List.mem_append,
          List.mem_cons, not_or]
        exact ⟨fun h => not_lt.2 hle (h1 key h), fun e => hd e.symm, ihr h4⟩

end TreeNode

/-! ## Traversals and the count -/

namespace TreeNode

@[simp] theorem preorderKeys_null : preorderKeys null = [] := rfl

@[simp] theorem preorderKeys_node (l r : TreeNode) (d : String) :
    preorderKeys (node l d r) = d :: (preorderKeys l ++ preorderKeys r) := rfl

@[simp] theorem postorderKeys_null : postorderKeys null = [] := rfl

@[simp] theorem postorderKeys_node (l r : TreeNode) (d : String) :
    postorderKeys (node l d r) = postorderKeys l ++ (postorderKeys r ++ [d]) := rfl

theorem preorderKeys_perm (t : TreeNode) : (preorderKeys t).Perm (inorderKeys t) := by
  induction t with
  | null => simp
  | node l d r ihl ihr =>
    simp only [preorderKeys_node, inorderKeys_node]
    exact (List.Perm.cons d (List.Perm.append ihl ihr)).trans List.perm_middle.symm

theorem postorderKeys_perm (t : TreeNode) : (postorderKeys t).Perm (inorderKeys t) := by
  induction t with
  | null => simp
  | node l d r ihl ihr =>
    simp only [postorderKeys_node, inorderKeys_node]
    refine List.Perm.append ihl ?_
    exact (List.perm_append_singleton d _).trans (List.Perm.cons d ihr)

theorem isBST_iff_isBSTb (t : TreeNode) : IsBST t ↔ isBSTb t = true := by
  induction t with
  | null => simp [IsBST, isBSTb]
  | node l d r ihl ihr =>
    simp only [IsBST, isBSTb, Bool.and_eq_true, List.all_eq_true, strLt_iff, ihl, ihr]
    tauto

end TreeNode

namespace BinarySearchTree

theorem count_eq (t : TreeNode) (n : Nat) : count t n = n + (inorderKeys t).length := by
  induction t generalizing n with
  | null => simp [count]
  | node l d r ihl ihr =>
    unfold count
    have e1 : (if l.isNull = true then n else count l n) = n + (inorderKeys l).length := by
      cases hl : l.isNull with
      | true => simp [(isNull_eq_true_iff l).1 hl]
      | false => simp [ihl]
    have e2 : ∀ m, (if r.isNull = true then m else count r m)
        = m + (inorderKeys r).length := by
      intro m
      cases hr : r.isNull with
      | true => simp [(isNull_eq_true_iff r).1 hr]
      | false => simp [ihr]
    simp only [e1, e2, inorderKeys_node, List.length_append, List.length_cons]
    omega

theorem inorder_eq (t : TreeNode) (out : String) (h : t ≠ null) :
    inorder t out = renderTab out (inorderKeys t) := by
  induction t generalizing out with
  | null => exact absurd rfl h
  | node l d r ihl ihr =>
    unfold inorder renderTab
    have e1 : (if l.isNull = true then out else inorder l out)
        = renderTab out (inorderKeys l) := by
      cases hl : l.isNull with
      | true => simp [(isNull_eq_true_iff l).1 hl, renderTab]
      | false => simp [ihl out ((isNull_eq_false_iff l).1 hl)]
    simp only [e1, inorderKeys_node, List.foldl_append, List.foldl_cons]
    cases hr : r.isNull with
    | true => simp [(isNull_eq_true_iff r).1 hr, renderTab]
    | false => simp [ihr _ ((isNull_eq_false_iff r).1 hr), renderTab]

theorem preorder_eq (t : TreeNode) (out : String) (h : t ≠ null) :
    preorder t out = renderBracket out (preorderKeys t) := by
  induction t generalizing out with
  | null => exact absurd rfl h
  | node l d r ihl ihr =>
    unfold preorder renderBracket
    have e1 : (if l.isNull = true then out ++ ("[" ++ d ++ "] ")
          else preorder l (out ++ ("[" ++ d ++ "] ")))
        = renderBracket (out ++ ("[" ++ d ++ "] ")) (preorderKeys l) := by
      cases hl : l.isNull with
      | true => simp [(isNull_eq_true_iff l).1 hl, renderBracket]
      | false => simp [ihl _ ((isNull_eq_false_iff l).1 hl)]
    simp only [e1, preorderKeys_node, List.foldl_append, List.foldl_cons]
    cases hr : r.isNull with
    | true => simp [(isNull_eq_true_iff r).1 hr, renderBracket]
    | false => simp [ihr _ ((isNull_eq_false_iff r).1 hr), renderBracket]

theorem postorder_eq (t : TreeNode) (out : String) (h : t ≠ null) :
    postorder t out = renderBracket out (postorderKeys t) := by
  induction t generalizing out with
  | null => exact absurd rfl h
  | node l d r ihl ihr =>
    unfold postorder
    have e1 : (if l.isNull = true then out else postorder l out)
        = renderBracket out (postorderKeys l) := by
      cases hl : l.isNull with
      | true => simp [(isNull_eq_true_iff l).1 hl, renderBracket]
      | false => simp [ihl _ ((isNull_eq_false_iff l).1 hl)]
    have e2 : (if r.isNull = true then renderBracket out (postorderKeys l)
          else postorder r (renderBracket out (postorderKeys l)))
        = renderBracket (renderBracket out (postorderKeys l)) (postorderKeys r) := by
      cases hr : r.isNull with
      | true => simp [(isNull_eq_true_iff r).1 hr, renderBracket]
      | false => simp [ihr _ ((isNull_eq_false_iff r).1 hr)]
    simp only [e1, e2]
    simp only [postorderKeys_node, List.foldl_append, List.foldl_cons, List.foldl_nil,
      renderBracket]

theorem fetchNode_eq (bst : BinarySearchTree) (key : String) :
    bst.fetchNode key =
      if (bst.root.sub (searchPath key bst.root)).isNull then NOT_FOUND_MESSAGE else key := by
  unfold fetchNode
  simp only [findNode_eq]
  cases hnull : (bst.root.sub (searchPath key bst.root)).isNull with
  | true => simp
  | false =>
    obtain ⟨l, r, hnode⟩ :=
      (searchPath_sub key bst.root).resolve_left ((isNull_eq_false_iff _).1 hnull)
    simp [getData, hnode]

theorem isBST_step (bst : BinarySearchTree) (op : Op) (h : IsBST bst.root) :
    IsBST (bst.step op).root := by
  cases op with
  | insert key =>
    simp only [step, insertNode_eq]
    split
    · exact isBST_insRec key _ h
    · exact h
  | delete key =>
    simp only [step, deleteNode_eq]
    split
    · exact h
    · exact isBST_delRec key _ h

theorem isBST_run (bst : BinarySearchTree) (ops : List Op) (h : IsBST bst.root) :
    IsBST (bst.run ops).root := by
  induction ops generalizing bst with
  | nil => exact h
  | cons op ops ih => exact ih (bst.step op) (isBST_step bst op h)

end BinarySearchTree

/-! ## More facts used by the contract -/

namespace TreeNode

theorem isBST_sub (t : TreeNode) (p : List Dir) (h : IsBST t) : IsBST (t.sub p) := by
  induction p generalizing t with
  | nil => simpa using h
  | cons x p ih =>
    cases t with
    | null => simpa using h
    | node l d r =>
      obtain ⟨_, _, h3, h4⟩ := h
      cases x
      · simpa using ih l h3
      · simpa using ih r h4

theorem maxKey_mem (t : TreeNode) (h : t ≠ null) : maxKey t ∈ inorderKeys t := by
  rw [inorderKeys_cutMax t h]
  simp

theorem inorderKeys_eq_nil_iff (t : TreeNode) : inorderKeys t = [] ↔ t = null := by
  cases t <;> simp

end TreeNode

namespace BinarySearchTree

theorem countNodes_eq (bst : BinarySearchTree) :
    bst.countNodes = (inorderKeys bst.root).length := by
  simp [countNodes, count_eq]

theorem insertNode_of_not_mem (bst : BinarySearchTree) (key : String) (hb : IsBST bst.root)
    (hk : key ∉ inorderKeys bst.root) :
    bst.insertNode key = (Except.ok (), ⟨insRec key bst.root⟩) := by
  rw [insertNode_eq, (not_found_iff_not_mem key bst.root hb).2 hk]
  rfl

theorem insertNode_of_mem (bst : BinarySearchTree) (key : String) (hb : IsBST bst.root)
    (hk : key ∈ inorderKeys bst.root) :
    bst.insertNode key = (Except.error DUPLICATE_MESSAGE, bst) := by
  rw [insertNode_eq, (found_iff_mem key bst.root hb).2 hk]
  rfl

theorem deleteNode_of_mem (bst : BinarySearchTree) (key : String) (hb : IsBST bst.root)
    (hk : key ∈ inorderKeys bst.root) :
    bst.deleteNode key = (key, ⟨delRec key bst.root⟩) := by
  rw [deleteNode_eq, (found_iff_mem key bst.root hb).2 hk]
  rfl

theorem deleteNode_of_not_mem (bst : BinarySearchTree) (key : String) (hb : IsBST bst.root)
    (hk : key ∉ inorderKeys bst.root) :
    bst.deleteNode key = (NOT_FOUND_MESSAGE, bst) := by
  rw [deleteNode_eq, (not_found_iff_not_mem key bst.root hb).2 hk]
  rfl

theorem not_mem_after_deleteNode (bst : BinarySearchTree) (key : String)
    (hb : IsBST bst.root) : key ∉ inorderKeys (bst.deleteNode key).2.root := by
  by_cases hk : key ∈ inorderKeys bst.root
  · rw [deleteNode_of_mem bst key hb hk]
    exact not_mem_delRec key bst.root hb
  · rw [deleteNode_of_not_mem bst key hb hk]
    exact hk

end BinarySearchTree

/-! ## The contract -/

namespace BinarySearchTree

/-- C1, evaluated on the code: on the tree built by inserting "C", "B", "D", "A" (the node
"C" has two children and its in-order predecessor "B" has the left child "A"), the call
`deleteNode("C")` returns "C" and leaves a tree whose inorder keys are "B", "D": the key
"A" of the predecessor's left child is no longer in the tree and `countNodes()` has gone
from 4 to 2. -/
theorem deleteNode_drops_predecessor_left_child :
    insertAll empty ["C", "B", "D", "A"]
        = Except.ok ⟨node (node (node null "A" null) "B" null) "C" (node null "D" null)⟩ ∧
      IsBST (node (node (node null "A" null) "B" null) "C" (node null "D" null)) ∧
      deleteNode ⟨node (node (node null "A" null) "B" null) "C" (node null "D" null)⟩ "C"
        = ("C", ⟨node null "B" (node null "D" null)⟩) ∧
      inorderKeys (node (node (node null "A" null) "B" null) "C" (node null "D" null))
        = ["A", "B", "C", "D"] ∧
      inorderKeys (node null "B" (node null "D" null)) = ["B", "D"] ∧
      countNodes ⟨node (node (node null "A" null) "B" null) "C" (node null "D" null)⟩ = 4 ∧
      countNodes ⟨node null "B" (node null "D" null)⟩ = 2 := by
  refine ⟨by rfl, (isBST_iff_isBSTb _).2 (by decide), by decide, by decide, by decide,
    by decide, by decide⟩

/-- C2: starting from the empty tree, after any finite sequence of `insertNode` and
`deleteNode` calls (those that throw or return the sentinel included) the tree has the
BST property, and its inorder keys are strictly ascending. -/
theorem bst_invariant_of_reachable (ops : List Op) :
    IsBST (run empty ops).root ∧ (inorderKeys (run empty ops).root).Pairwise (· < ·) := by
  have h : IsBST (run empty ops).root := isBST_run empty ops trivial
  exact ⟨h, (isBST_iff_sorted _).1 h⟩

/-- C3: on a BST-valid tree, `deleteNode(K)` for a key `K` of the tree returns `K`; when the
matched node has a left subtree (so also in the two-children case) the returned value
differs from the key of the rightmost node of that subtree, the predecessor whose key
overwrites the node. -/
theorem deleteNode_returns_key (bst : BinarySearchTree) (K : String)
    (hb : IsBST bst.root) (hk : K ∈ inorderKeys bst.root) :
    (bst.deleteNode K).1 = K ∧
      ∀ l r, bst.root.sub (searchPath K bst.root) = node l K r → l ≠ null →
        (bst.deleteNode K).1 ≠ maxKey l := by
  rw [deleteNode_of_mem bst K hb hk]
  refine ⟨rfl, ?_⟩
  intro l r hnode hl
  have hsubb : IsBST (node l K r) := hnode ▸ isBST_sub bst.root _ hb
  intro e
  have e2 : K = maxKey l := e
  have hlt : maxKey l < K := hsubb.1 (maxKey l) (maxKey_mem l hl)
  rw [← e2] at hlt
  exact lt_irrefl K hlt

/-- C4: on a BST-valid tree, `deleteNode(K)` for a key `K` that is not in the tree returns
the sentinel and leaves the tree as it is, so the traversals and the count are unchanged. -/
theorem deleteNode_absent_key (bst : BinarySearchTree) (K : String)
    (hb : IsBST bst.root) (hk : K ∉ inorderKeys bst.root) :
    (bst.deleteNode K).1 = "Did not locate node in tree." ∧
      (bst.deleteNode K).2 = bst ∧
      (bst.deleteNode K).2.inorderTraversal = bst.inorderTraversal ∧
      (bst.deleteNode K).2.preorderTraversal = bst.preorderTraversal ∧
      (bst.deleteNode K).2.postorderTraversal = bst.postorderTraversal ∧
      (bst.deleteNode K).2.countNodes = bst.countNodes := by
  rw [deleteNode_of_not_mem bst K hb hk]
  exact ⟨rfl, rfl, rfl, rfl, rfl, rfl⟩

/-- C5: on a BST-valid tree, `insertNode(K)` for a key `K` of the tree throws the
duplicate-key `logic_error` and leaves the tree as it is (same traversal outputs, same
count); and `insertNode(K)` throws only if `K` is a key of the tree. -/
theorem insertNode_duplicate (bst : BinarySearchTree) (K : String) (hb : IsBST bst.root) :
    (K ∈ inorderKeys bst.root →
      (bst.insertNode K).1
          = Except.error "Error -- cannot insert a duplicate node in a Binary Search Tree." ∧
        (bst.insertNode K).2 = bst ∧
        (bst.insertNode K).2.inorderTraversal = bst.inorderTraversal ∧
        (bst.insertNode K).2.preorderTraversal = bst.preorderTraversal ∧
        (bst.insertNode K).2.postorderTraversal = bst.postorderTraversal ∧
        (bst.insertNode K).2.countNodes = bst.countNodes) ∧
      (∀ e, (bst.insertNode K).1 = Except.error e → K ∈ inorderKeys bst.root) := by
  constructor
  · intro hk
    rw [insertNode_of_mem bst K hb hk]
    exact ⟨rfl, rfl, rfl, rfl, rfl, rfl⟩
  · intro e he
    by_contra hk
    rw [insertNode_of_not_mem bst K hb hk] at he
    cases he

/-- C6: on a BST-valid tree, `insertNode(K)` for a key `K` that is not in the tree
succeeds, `countNodes()` grows by one, and the inorder keys afterwards are the inorder
keys before with `K` put between the smaller and the larger ones; they are strictly
ascending and they are what `inorderTraversal()` then prints. -/
theorem insertNode_new_key (bst : BinarySearchTree) (K : String)
    (hb : IsBST bst.root) (hk : K ∉ inorderKeys bst.root) :
    (bst.insertNode K).1 = Except.ok () ∧
      (bst.insertNode K).2.countNodes = bst.countNodes + 1 ∧
      (∃ pre post, inorderKeys bst.root = pre ++ post ∧
        inorderKeys (bst.insertNode K).2.root = pre ++ K :: post ∧
        (∀ x ∈ pre, x < K) ∧ (∀ x ∈ post, K < x)) ∧
      (inorderKeys (bst.insertNode K).2.root).Pairwise (· < ·) ∧
      (bst.insertNode K).2.inorderTraversal
        = renderTab "" (inorderKeys (bst.insertNode K).2.root) := by
  have hex := inorderKeys_insRec K bst.root hb hk
  rw [insertNode_of_not_mem bst K hb hk]
  obtain ⟨pre, post, e1, e2, e3, e4⟩ := hex
  refine ⟨rfl, ?_, ⟨pre, post, e1, e2, e3, e4⟩, ?_, ?_⟩
  · simp only [countNodes_eq, e1, e2, List.length_append, List.length_cons]
    omega
  · exact (isBST_iff_sorted _).1 (isBST_insRec K _ hb)
  · apply inorder_eq
    intro h0
    have h1 : insRec K bst.root = null := h0
    rw [h1] at e2
    simp at e2

end BinarySearchTree

namespace BinarySearchTree

theorem perm_insRec (key : String) (t : TreeNode) (hb : IsBST t)
    (hk : key ∉ inorderKeys t) : (inorderKeys (insRec key t)).Perm (key :: inorderKeys t) := by
  obtain ⟨pre, post, e1, e2, _, _⟩ := inorderKeys_insRec key t hb hk
  rw [e1, e2]
  exact List.perm_middle

theorem insertAll_spec (ks : List String) (bst : BinarySearchTree) (hb : IsBST bst.root)
    (hnd : ks.Nodup) (hdisj : ∀ k ∈ ks, k ∉ inorderKeys bst.root) :
    ∃ b, insertAll bst ks = Except.ok b ∧ IsBST b.root ∧
      (inorderKeys b.root).Perm (inorderKeys bst.root ++ ks) := by
  induction ks generalizing bst with
  | nil => exact ⟨bst, rfl, hb, by simp⟩
  | cons k ks ih =>
    have hk : k ∉ inorderKeys bst.root := hdisj k (List.mem_cons_self k ks)
    obtain ⟨hkks, hnd2⟩ := List.nodup_cons.1 hnd
    have hperm := perm_insRec k bst.root hb hk
    have hdisj2 : ∀ k2 ∈ ks, k2 ∉ inorderKeys (insRec k bst.root) := by
      intro k2 hk2 hmem
      rcases List.mem_cons.1 (hperm.mem_iff.1 hmem) with h | h
      · exact hkks (h ▸ hk2)
      · exact hdisj k2 (List.mem_cons_of_mem k hk2) h
    obtain ⟨b, e1, e2, e3⟩ := ih ⟨insRec k bst.root⟩ (isBST_insRec k _ hb) hnd2 hdisj2
    refine ⟨b, ?_, e2, ?_⟩
    · unfold insertAll
      rw [insertNode_of_not_mem bst k hb hk]
      exact e1
    · refine e3.trans ?_
      refine (List.Perm.append_right ks hperm).trans ?_
      simp only [List.cons_append]
      exact List.perm_middle.symm

theorem sorted_perm_unique (l1 l2 : List String) (hp : l1.Perm l2)
    (h1 : l1.Pairwise (· < ·)) (h2 : l2.Pairwise (· < ·)) : l1 = l2 :=
  List.eq_of_perm_of_sorted hp h1 h2

/-- C7, on the code: for the empty list of keys the inorder traversal of the resulting
(empty) tree is the text "Oops - inorder reached nullptr", not the empty listing. -/
theorem round_trip_fails_without_keys :
    ([] : List String).Nodup ∧ insertAll empty [] = Except.ok empty ∧
      empty.inorderTraversal = "Oops - inorder reached nullptr" ∧
      empty.inorderTraversal ≠ renderTab "" [] := by
  refine ⟨List.nodup_nil, rfl, by decide, by decide⟩

/-- C7, amended: for every non-empty list of pairwise distinct keys, inserting them in
the given order into an empty tree succeeds, and the inorder traversal then prints exactly
those keys, each once, in strictly ascending order; inserting the same keys in any other
order gives the same inorder keys and the same traversal output. -/
theorem round_trip (ks : List String) (hne : ks ≠ []) (hnd : ks.Nodup) :
    ∃ b, insertAll empty ks = Except.ok b ∧
      (inorderKeys b.root).Pairwise (· < ·) ∧ (inorderKeys b.root).Perm ks ∧
      b.inorderTraversal = renderTab "" (inorderKeys b.root) ∧
      ∀ ks2 : List String, ks2.Perm ks →
        ∃ b2, insertAll empty ks2 = Except.ok b2 ∧
          inorderKeys b2.root = inorderKeys b.root ∧
          b2.inorderTraversal = b.inorderTraversal := by
  have key : ∀ l : List String, l ≠ [] → l.Nodup →
      ∃ b, insertAll empty l = Except.ok b ∧
        (inorderKeys b.root).Pairwise (· < ·) ∧ (inorderKeys b.root).Perm l ∧
        b.inorderTraversal = renderTab "" (inorderKeys b.root) := by
    intro l hl hn
    obtain ⟨b, e1, e2, e3⟩ := insertAll_spec l empty trivial hn (by simp [empty])
    have e4 : (inorderKeys b.root).Perm l := by simpa [empty] using e3
    refine ⟨b, e1, (isBST_iff_sorted _).1 e2, e4, ?_⟩
    apply inorder_eq
    intro h0
    rw [h0] at e4
    exact hl (List.Perm.eq_nil (by simpa using e4.symm))
  obtain ⟨b, e1, e2, e3, e4⟩ := key ks hne hnd
  refine ⟨b, e1, e2, e3, e4, ?_⟩
  intro ks2 hp
  have hne2 : ks2 ≠ [] := fun h0 => hne (List.Perm.eq_nil (by simpa [h0] using hp.symm))
  obtain ⟨b2, f1, f2, f3, f4⟩ := key ks2 hne2 (hp.nodup_iff.2 hnd)
  have heq : inorderKeys b2.root = inorderKeys b.root :=
    sorted_perm_unique _ _ (f3.trans (hp.trans e3.symm)) f2 e2
  exact ⟨b2, f1, heq, by rw [f4, e4, heq]⟩

/-- C8: on a BST-valid tree, after `deleteNode(K)` the call `fetchNode(K)` returns the
sentinel, and `K` is not among the inorder, preorder or postorder keys. -/
theorem fetchNode_after_deleteNode (bst : BinarySearchTree) (K : String)
    (hb : IsBST bst.root) :
    (bst.deleteNode K).2.fetchNode K = "Did not locate node in tree." ∧
      K ∉ inorderKeys (bst.deleteNode K).2.root ∧
      K ∉ preorderKeys (bst.deleteNode K).2.root ∧
      K ∉ postorderKeys (bst.deleteNode K).2.root := by
  have h := not_mem_after_deleteNode bst K hb
  refine ⟨?_, h, fun h2 => h ((preorderKeys_perm _).mem_iff.1 h2),
    fun h2 => h ((postorderKeys_perm _).mem_iff.1 h2)⟩
  rw [fetchNode_eq]
  have : ((bst.deleteNode K).2.root.sub (searchPath K (bst.deleteNode K).2.root)).isNull
      = true := by
    by_contra h3
    exact h (mem_of_found K _ (by simpa [isNull_eq_true_iff] using h3))
  rw [this]
  rfl

/-- C9: on a BST-valid tree, `fetchNode(K)` returns `K` if `K` is a key of the tree,
wherever it is, and the sentinel otherwise (the function only reads the tree); on the tree
built by inserting M, D, P, A, F, N, Z, `fetchNode("X")` returns the sentinel. -/
theorem fetchNode_spec (bst : BinarySearchTree) (K : String) (hb : IsBST bst.root) :
    (K ∈ inorderKeys bst.root → bst.fetchNode K = K) ∧
      (K ∉ inorderKeys bst.root → bst.fetchNode K = "Did not locate node in tree.") ∧
      insertAll empty ["M", "D", "P", "A", "F", "N", "Z"] = Except.ok scenarioTree ∧
      scenarioTree.fetchNode "X" = "Did not locate node in tree." := by
  refine ⟨?_, ?_, by rfl, by decide⟩
  · intro hk
    rw [fetchNode_eq, (found_iff_mem K bst.root hb).2 hk]
    rfl
  · intro hk
    rw [fetchNode_eq, (not_found_iff_not_mem K bst.root hb).2 hk]
    rfl

/-- C10, on the code: on the empty tree `countNodes()` is 0, while the output of
`inorderTraversal()`, `preorderTraversal()` and `postorderTraversal()` is the text
"Oops - inorder reached nullptr", which is not a listing of 0 entries. -/
theorem count_consistency_fails_on_empty :
    empty.countNodes = 0 ∧
      empty.inorderTraversal = "Oops - inorder reached nullptr" ∧
      empty.preorderTraversal = "Oops - inorder reached nullptr" ∧
      empty.postorderTraversal = "Oops - inorder reached nullptr" ∧
      (¬ ∃ ks : List String, ks.length = empty.countNodes ∧
        empty.inorderTraversal = renderTab "" ks) ∧
      (¬ ∃ ks : List String, ks.length = empty.countNodes ∧
        empty.preorderTraversal = renderBracket "" ks) ∧
      (¬ ∃ ks : List String, ks.length = empty.countNodes ∧
        empty.postorderTraversal = renderBracket "" ks) := by
  have h0 : empty.countNodes = 0 := by decide
  refine ⟨h0, by decide, by decide, by decide, ?_, ?_, ?_⟩ <;>
  · rintro ⟨ks, hlen, hout⟩
    rw [h0] at hlen
    rw [List.length_eq_zero.1 hlen] at hout
    revert hout
    decide

/-- C10, amended: `countNodes()` is the number of nodes, and on every non-empty tree it
equals the number of entries in the output of `inorderTraversal()`, `preorderTraversal()`
and `postorderTraversal()`: each output is the listing of exactly that many keys, and the
three listings hold the same keys, each node's key once.  On the empty tree `countNodes()`
is 0 and each of the three outputs is the text "Oops - inorder reached nullptr". -/
theorem count_consistency (bst : BinarySearchTree) :
    bst.countNodes = (inorderKeys bst.root).length ∧
      bst.countNodes = (preorderKeys bst.root).length ∧
      bst.countNodes = (postorderKeys bst.root).length ∧
      (preorderKeys bst.root).Perm (inorderKeys bst.root) ∧
      (postorderKeys bst.root).Perm (inorderKeys bst.root) ∧
      bst.inorderTraversal =
        (if bst.root.isNull then "Oops - inorder reached nullptr"
          else renderTab "" (inorderKeys bst.root)) ∧
      bst.preorderTraversal =
        (if bst.root.isNull then "Oops - inorder reached nullptr"
          else renderBracket "" (preorderKeys bst.root)) ∧
      bst.postorderTraversal =
        (if bst.root.isNull then "Oops - inorder reached nullptr"
          else renderBracket "" (postorderKeys bst.root)) := by
  refine ⟨countNodes_eq bst, ?_, ?_, preorderKeys_perm _, postorderKeys_perm _, ?_, ?_, ?_⟩
  · rw [countNodes_eq, (preorderKeys_perm _).length_eq]
  · rw [countNodes_eq, (postorderKeys_perm _).length_eq]
  · cases h : bst.root.isNull with
    | true =>
      simp only [inorderTraversal, (isNull_eq_true_iff _).1 h, if_true]
      rfl
    | false =>
      simp only [Bool.false_eq_true, if_false]
      exact inorder_eq _ _ ((isNull_eq_false_iff _).1 h)
  · cases h : bst.root.isNull with
    | true =>
      simp only [preorderTraversal, (isNull_eq_true_iff _).1 h, if_true]
      rfl
    | false =>
      simp only [Bool.false_eq_true, if_false]
      exact preorder_eq _ _ ((isNull_eq_false_iff _).1 h)
  · cases h : bst.root.isNull with
    | true =>
      simp only [postorderTraversal, (isNull_eq_true_iff _).1 h, if_true]
      rfl
    | false =>
      simp only [Bool.false_eq_true, if_false]
      exact postorder_eq _ _ ((isNull_eq_false_iff _).1 h)

end BinarySearchTree

/-! ## The contract on the concrete scenario -/

namespace BinarySearchTree

theorem scenarioTree_isBST : IsBST scenarioTree.root :=
  (isBST_iff_isBSTb _).2 (by decide)

/-- Witness of C3: deleting "D", a node with the two children "A" and "F", returns "D". -/
theorem deleteNode_returns_key_witness :
    IsBST scenarioTree.root ∧ "D" ∈ inorderKeys scenarioTree.root ∧
      ((scenarioTree.deleteNode "D").1 = "D" ∧
        ∀ l r, scenarioTree.root.sub (searchPath "D" scenarioTree.root) = node l "D" r →
          l ≠ null → (scenarioTree.deleteNode "D").1 ≠ maxKey l) :=
  ⟨scenarioTree_isBST, by decide,
    deleteNode_returns_key scenarioTree "D" scenarioTree_isBST (by decide)⟩

/-- Witness of C4: deleting the absent key "X". -/
theorem deleteNode_absent_key_witness :
    IsBST scenarioTree.root ∧ "X" ∉ inorderKeys scenarioTree.root ∧
      ((scenarioTree.deleteNode "X").1 = "Did not locate node in tree." ∧
        (scenarioTree.deleteNode "X").2 = scenarioTree ∧
        (scenarioTree.deleteNode "X").2.inorderTraversal = scenarioTree.inorderTraversal ∧
        (scenarioTree.deleteNode "X").2.preorderTraversal = scenarioTree.preorderTraversal ∧
        (scenarioTree.deleteNode "X").2.postorderTraversal
          = scenarioTree.postorderTraversal ∧
        (scenarioTree.deleteNode "X").2.countNodes = scenarioTree.countNodes) :=
  ⟨scenarioTree_isBST, by decide,
    deleteNode_absent_key scenarioTree "X" scenarioTree_isBST (by decide)⟩

/-- Witness of C5: inserting "F" a second time. -/
theorem insertNode_duplicate_witness :
    IsBST scenarioTree.root ∧ "F" ∈ inorderKeys scenarioTree.root ∧
      (scenarioTree.insertNode "F").1
        = Except.error "Error -- cannot insert a duplicate node in a Binary Search Tree." ∧
      (scenarioTree.insertNode "F").2 = scenarioTree :=
  ⟨scenarioTree_isBST, by decide,
    ((insertNode_duplicate scenarioTree "F" scenarioTree_isBST).1 (by decide)).1,
    ((insertNode_duplicate scenarioTree "F" scenarioTree_isBST).1 (by decide)).2.1⟩

/-- Witness of C6: inserting the new key "X". -/
theorem insertNode_new_key_witness :
    IsBST scenarioTree.root ∧ "X" ∉ inorderKeys scenarioTree.root ∧
      ((scenarioTree.insertNode "X").1 = Except.ok () ∧
        (scenarioTree.insertNode "X").2.countNodes = scenarioTree.countNodes + 1 ∧
        (∃ pre post, inorderKeys scenarioTree.root = pre ++ post ∧
          inorderKeys (scenarioTree.insertNode "X").2.root = pre ++ "X" :: post ∧
          (∀ x ∈ pre, x < "X") ∧ (∀ x ∈ post, "X" < x)) ∧
        (inorderKeys (scenarioTree.insertNode "X").2.root).Pairwise (· < ·) ∧
        (scenarioTree.insertNode "X").2.inorderTraversal
          = renderTab "" (inorderKeys (scenarioTree.insertNode "X").2.root)) :=
  ⟨scenarioTree_isBST, by decide,
    insertNode_new_key scenarioTree "X" scenarioTree_isBST (by decide)⟩

/-- Witness of C7: the keys M, D, P, A, F, N, Z. -/
theorem round_trip_witness :
    ["M", "D", "P", "A", "F", "N", "Z"] ≠ [] ∧ ["M", "D", "P", "A", "F", "N", "Z"].Nodup ∧
      ∃ b, insertAll empty ["M", "D", "P", "A", "F", "N", "Z"] = Except.ok b ∧
        (inorderKeys b.root).Pairwise (· < ·) ∧
        (inorderKeys b.root).Perm ["M", "D", "P", "A", "F", "N", "Z"] ∧
        b.inorderTraversal = renderTab "" (inorderKeys b.root) ∧
        ∀ ks2 : List String, ks2.Perm ["M", "D", "P", "A", "F", "N", "Z"] →
          ∃ b2, insertAll empty ks2 = Except.ok b2 ∧
            inorderKeys b2.root = inorderKeys b.root ∧
            b2.inorderTraversal = b.inorderTraversal :=
  ⟨by decide, by decide,
    round_trip ["M", "D", "P", "A", "F", "N", "Z"] (by decide) (by decide)⟩

/-- Witness of C8: deleting "D" and fetching it. -/
theorem fetchNode_after_deleteNode_witness :
    IsBST scenarioTree.root ∧
      ((scenarioTree.deleteNode "D").2.fetchNode "D" = "Did not locate node in tree." ∧
        "D" ∉ inorderKeys (scenarioTree.deleteNode "D").2.root ∧
        "D" ∉ preorderKeys (scenarioTree.deleteNode "D").2.root ∧
        "D" ∉ postorderKeys (scenarioTree.deleteNode "D").2.root) :=
  ⟨scenarioTree_isBST, fetchNode_after_deleteNode scenarioTree "D" scenarioTree_isBST⟩

/-- Witness of C9: fetching "F", a key two links away from the root. -/
theorem fetchNode_spec_witness :
    IsBST scenarioTree.root ∧ "F" ∈ inorderKeys scenarioTree.root ∧
      scenarioTree.fetchNode "F" = "F" :=
  ⟨scenarioTree_isBST, by decide,
    (fetchNode_spec scenarioTree "F" scenarioTree_isBST).1 (by decide)⟩

end BinarySearchTree

/-! ## Filling an array in inorder -/

namespace BinarySearchTree

theorem inorderFillArray_ite (l : TreeNode) (s : FillState) :
    (if l.isNull = true then s else inorderFillArray l s) = inorderFillArray l s := by
  cases l <;> simp [isNull, inorderFillArray]

theorem inorderFillArray_node (l r : TreeNode) (d : String) (s : FillState) :
    inorderFillArray (node l d r) s =
      inorderFillArray r
        ⟨fun i => if i = (inorderFillArray l s).next_index then d
            else (inorderFillArray l s).the_array i,
          (inorderFillArray l s).next_index + 1,
          (inorderFillArray l s).written ++ [(inorderFillArray l s).next_index]⟩ := by
  conv => lhs; unfold inorderFillArray
  simp only [inorderFillArray_ite]

/-- The effect of `inorderFillArray`: the counter advances by the number of nodes, the
cells from the old counter on receive the inorder keys, one assignment per cell in
ascending order of the index, and no other cell changes. -/
theorem inorderFillArray_spec (t : TreeNode) (s : FillState) :
    (inorderFillArray t s).next_index = s.next_index + (inorderKeys t).length ∧
      (inorderFillArray t s).written
        = s.written ++ List.range' s.next_index (inorderKeys t).length ∧
      (∀ i, i < s.next_index ∨ s.next_index + (inorderKeys t).length ≤ i →
        (inorderFillArray t s).the_array i = s.the_array i) ∧
      (∀ j, j < (inorderKeys t).length →
        (inorderKeys t)[j]? = some ((inorderFillArray t s).the_array (s.next_index + j))) := by
  induction t generalizing s with
  | null => simp [inorderFillArray]
  | node l d r ihl ihr =>
    rw [inorderFillArray_node]
    obtain ⟨a1, a2, a3, a4⟩ := ihl s
    generalize inorderFillArray l s = s1 at *
    obtain ⟨b1, b2, b3, b4⟩ := ihr
      ⟨fun i => if i = s1.next_index then d else s1.the_array i, s1.next_index + 1,
        s1.written ++ [s1.next_index]⟩
    generalize inorderFillArray r
      ⟨fun i => if i = s1.next_index then d else s1.the_array i, s1.next_index + 1,
        s1.written ++ [s1.next_index]⟩ = s3 at *
    simp only at b1 b2 b3 b4
    simp only [inorderKeys_node, List.length_append, List.length_cons]
    refine ⟨by omega, ?_, ?_, ?_⟩
    · rw [b2, a2, a1, List.append_assoc, List.append_assoc]
      congr 1
      have e1 : [s.next_index + (inorderKeys l).length]
          = List.range' (s.next_index + (inorderKeys l).length) 1 := rfl
      rw [e1, List.range'_append_1, List.range'_append_1]
      congr 1
      omega
    · intro i hi
      rw [b3 i (by omega)]
      have : i ≠ s1.next_index := by omega
      simp only [this, if_false]
      exact a3 i (by omega)
    · intro j hj
      rcases Nat.lt_trichotomy j (inorderKeys l).length with h | h | h
      · rw [List.getElem?_append_left h, a4 j h, b3 _ (by omega)]
        have : s.next_index + j ≠ s1.next_index := by omega
        simp only [this, if_false]
      · subst h
        rw [List.getElem?_append_right (le_refl _), b3 _ (by omega)]
        simp [a1]
      · rw [List.getElem?_append_right (by omega)]
        obtain ⟨k, hk⟩ : ∃ k, j = (inorderKeys l).length + 1 + k := ⟨j - (inorderKeys l).length - 1, by omega⟩
        subst hk
        have e2 : (inorderKeys l).length + 1 + k - (inorderKeys l).length = k + 1 := by omega
        rw [e2, List.getElem?_cons_succ, b4 k (by omega)]
        congr 2
        omega

end BinarySearchTree

/-! ## A node and the rest of the tree -/

namespace TreeNode

theorem getRight_eq_right (t : TreeNode) (p : List Dir) (h : t.sub (p ++ [Dir.R]) ≠ null) :
    t.getRight p = some (p ++ [Dir.R]) := by
  rw [sub_append] at h
  unfold getRight
  split
  · rename_i heq; rw [heq] at h; simp at h
  · rename_i l d r heq
    rw [heq] at h
    simp only [sub_node_R, sub_nil] at h
    simp [(isNull_eq_false_iff r).2 h]

theorem mem_inorderKeys_of_sub (t : TreeNode) (q : List Dir) (l r : TreeNode) (d : String)
    (h : t.sub q = node l d r) : d ∈ inorderKeys t := by
  induction q generalizing t with
  | nil =>
    rw [sub_nil] at h
    simp [h]
  | cons x q ih =>
    cases t with
    | null => simp at h
    | node a e b =>
      cases x
      · simp only [sub_node_L] at h
        simp [ih a h]
      · simp only [sub_node_R] at h
        simp [ih b h]

/-- In a tree with the BST property the loop of `findNode` walks to the position of the
node that holds the key. -/
theorem searchPath_eq_of_sub (key : String) (t : TreeNode) (q : List Dir) (l r : TreeNode)
    (hb : IsBST t) (h : t.sub q = node l key r) : searchPath key t = q := by
  induction q generalizing t with
  | nil =>
    rw [sub_nil] at h
    simp [h, searchPath]
  | cons x q ih =>
    cases t with
    | null => simp at h
    | node a e b =>
      obtain ⟨h1, h2, h3, h4⟩ := hb
      unfold searchPath
      cases x
      · simp only [sub_node_L] at h
        have hlt : key < e := h1 key (mem_inorderKeys_of_sub a q l r key h)
        have hne : ¬ e = key := fun e1 => lt_irrefl key (e1 ▸ hlt)
        simp [hne, (strLt_iff key e).2 hlt, ih a h3 h]
      · simp only [sub_node_R] at h
        have hlt : e < key := h2 key (mem_inorderKeys_of_sub b q l r key h)
        have hne : ¬ e = key := fun e1 => lt_irrefl key (e1 ▸ hlt)
        have hnlt : strLt key e = false := (strLt_false_iff key e).2 (le_of_lt hlt)
        simp [hne, hnlt, ih b h4 h]

/-- The loop of `findNode` does not walk past a node that holds the key. -/
theorem searchPath_prefix_ne (key : String) (t : TreeNode) (p rest : List Dir) (x : Dir)
    (h : searchPath key t = p ++ x :: rest) :
    ∃ l d r, t.sub p = node l d r ∧ d ≠ key := by
  induction t generalizing p with
  | null => simp [searchPath] at h
  | node l d r ihl ihr =>
    unfold searchPath at h
    by_cases h1 : d = key
    · simp [h1] at h
    · cases h2 : strLt key d with
      | true =>
        simp only [h1, h2, if_false, if_true] at h
        cases p with
        | nil => exact ⟨l, d, r, by simp, h1⟩
        | cons y p =>
          simp only [List.cons_append, List.cons.injEq] at h
          obtain ⟨hy, hp⟩ := h
          subst hy
          simpa using ihl p hp
      | false =>
        simp only [h1, h2, Bool.false_eq_true, if_false] at h
        cases p with
        | nil => exact ⟨l, d, r, by simp, h1⟩
        | cons y p =>
          simp only [List.cons_append, List.cons.injEq] at h
          obtain ⟨hy, hp⟩ := h
          subst hy
          simpa using ihr p hp

theorem inorderKeys_modify (t : TreeNode) (q : List Dir) (h : t.sub q ≠ null) :
    ∃ pre post, inorderKeys t = pre ++ inorderKeys (t.sub q) ++ post ∧
      ∀ f, inorderKeys (t.modify f q) = pre ++ inorderKeys (f (t.sub q)) ++ post := by
  induction q generalizing t with
  | nil => exact ⟨[], [], by simp, by simp⟩
  | cons x q ih =>
    cases t with
    | null => simp at h
    | node a e b =>
      cases x
      · obtain ⟨pre, post, e1, e2⟩ := ih a (by simpa using h)
        refine ⟨pre, post ++ e :: inorderKeys b, ?_, ?_⟩
        · simp [e1]
        · intro f; simp [e2 f]
      · obtain ⟨pre, post, e1, e2⟩ := ih b (by simpa using h)
        refine ⟨inorderKeys a ++ e :: pre, post, ?_, ?_⟩
        · simp [e1]
        · intro f; simp [e2 f]

theorem preorderKeys_modify (t : TreeNode) (q : List Dir) (h : t.sub q ≠ null) :
    ∃ pre post, preorderKeys t = pre ++ preorderKeys (t.sub q) ++ post ∧
      ∀ f, preorderKeys (t.modify f q) = pre ++ preorderKeys (f (t.sub q)) ++ post := by
  induction q generalizing t with
  | nil => exact ⟨[], [], by simp, by simp⟩
  | cons x q ih =>
    cases t with
    | null => simp at h
    | node a e b =>
      cases x
      · obtain ⟨pre, post, e1, e2⟩ := ih a (by simpa using h)
        refine ⟨e :: pre, post ++ preorderKeys b, ?_, ?_⟩
        · simp [e1]
        · intro f; simp [e2 f]
      · obtain ⟨pre, post, e1, e2⟩ := ih b (by simpa using h)
        refine ⟨e :: (preorderKeys a ++ pre), post, ?_, ?_⟩
        · simp [e1]
        · intro f; simp [e2 f]

theorem postorderKeys_modify (t : TreeNode) (q : List Dir) (h : t.sub q ≠ null) :
    ∃ pre post, postorderKeys t = pre ++ postorderKeys (t.sub q) ++ post ∧
      ∀ f, postorderKeys (t.modify f q) = pre ++ postorderKeys (f (t.sub q)) ++ post := by
  induction q generalizing t with
  | nil => exact ⟨[], [], by simp, by simp⟩
  | cons x q ih =>
    cases t with
    | null => simp at h
    | node a e b =>
      cases x
      · obtain ⟨pre, post, e1, e2⟩ := ih a (by simpa using h)
        refine ⟨pre, post ++ (postorderKeys b ++ [e]), ?_, ?_⟩
        · simp [e1]
        · intro f; simp [e2 f]
      · obtain ⟨pre, post, e1, e2⟩ := ih b (by simpa using h)
        refine ⟨postorderKeys a ++ pre, post ++ [e], ?_, ?_⟩
        · simp [e1]
        · intro f; simp [e2 f]

theorem erase_middle (a b : List String) (k : String) (h : (a ++ k :: b).Nodup) :
    (a ++ k :: b).erase k = a ++ b := by
  have hk : k ∉ a := by
    intro hmem
    have := List.nodup_append.1 h
    exact this.2.2 hmem (List.mem_cons_self k b)
  rw [List.erase_append_right _ hk, List.erase_cons_head]

theorem erase_middle3 (a b c : List String) (k : String)
    (h : (a ++ (b ++ k :: c)).Nodup) : (a ++ (b ++ k :: c)).erase k = a ++ (b ++ c) := by
  rw [← List.append_assoc] at h ⊢
  rw [erase_middle _ _ _ h, List.append_assoc]

theorem nodup_inorderKeys (t : TreeNode) (hb : IsBST t) : (inorderKeys t).Nodup :=
  ((isBST_iff_sorted t).1 hb).imp (fun h => ne_of_lt h)

end TreeNode

/-! ## The contract, continued -/

namespace BinarySearchTree

theorem deleteNode_at (bst : BinarySearchTree) (K : String) (q : List Dir) (l r : TreeNode)
    (hb : IsBST bst.root) (h : bst.root.sub q = node l K r) :
    bst.deleteNode K = (K, ⟨bst.root.modify removeNode q⟩) := by
  have hq : searchPath K bst.root = q := searchPath_eq_of_sub K bst.root q l r hb h
  rw [deleteNode_eq, hq, h, ← modify_searchPath_delRec, hq]
  rfl

theorem countNodes_deleteNode_lt (bst : BinarySearchTree) (K : String) (hb : IsBST bst.root)
    (hk : K ∈ inorderKeys bst.root) : (bst.deleteNode K).2.countNodes < bst.countNodes := by
  have hnot := not_mem_after_deleteNode bst K hb
  rw [deleteNode_of_mem bst K hb hk] at hnot ⊢
  simp only [countNodes_eq]
  have hsub := inorderKeys_delRec_sublist K bst.root
  rcases Nat.lt_or_ge (inorderKeys (delRec K bst.root)).length (inorderKeys bst.root).length
    with h | h
  · exact h
  · exact absurd (hsub.eq_of_length_le h ▸ hk) hnot

/-- C11, on the code: on the tree built by inserting M, D, P, A, F, N, Z the call
`updateNode("A", "D")` throws the duplicate-key `logic_error`, and the tree it leaves
behind no longer holds "A": `countNodes()` has gone from 7 to 6. -/
theorem updateNode_throws_after_deleting :
    IsBST scenarioTree.root ∧ "A" ∈ inorderKeys scenarioTree.root ∧
      scenarioTree.updateNode "A" "D" =
        (Except.error "Error -- cannot insert a duplicate node in a Binary Search Tree.",
          ⟨node (node null "D" (node null "F" null)) "M"
            (node (node null "N" null) "P" (node null "Z" null))⟩) ∧
      "A" ∉ inorderKeys (scenarioTree.updateNode "A" "D").2.root ∧
      scenarioTree.countNodes = 7 ∧ (scenarioTree.updateNode "A" "D").2.countNodes = 6 ∧
      (scenarioTree.updateNode "A" "D").2 ≠ scenarioTree := by
  refine ⟨(isBST_iff_isBSTb _).2 (by decide), by decide, by rfl, by decide, by decide,
    by decide, by decide⟩

/-- C11, amended: on a BST-valid tree, `insertNode` either completes or throws and leaves
the tree as it was (`deleteNode` has no throwing path).  `updateNode(oldKey, newKey)`
throws the duplicate-key error exactly when `newKey` is in the tree that
`deleteNode(oldKey)` leaves, and the tree is then that tree: the tree before the call when
`oldKey` was absent, a tree without `oldKey` and with fewer nodes when it was present. -/
theorem mutation_outcomes (bst : BinarySearchTree) (K oldKey newKey : String)
    (hb : IsBST bst.root) :
    (∀ e, (bst.insertNode K).1 = Except.error e → (bst.insertNode K).2 = bst) ∧
      ((∃ e, (bst.updateNode oldKey newKey).1 = Except.error e) ↔
        newKey ∈ inorderKeys (bst.deleteNode oldKey).2.root) ∧
      (∀ e, (bst.updateNode oldKey newKey).1 = Except.error e →
        e = "Error -- cannot insert a duplicate node in a Binary Search Tree." ∧
        (bst.updateNode oldKey newKey).2 = (bst.deleteNode oldKey).2 ∧
        (oldKey ∉ inorderKeys bst.root → (bst.updateNode oldKey newKey).2 = bst) ∧
        (oldKey ∈ inorderKeys bst.root →
          oldKey ∉ inorderKeys (bst.updateNode oldKey newKey).2.root ∧
          (bst.updateNode oldKey newKey).2.countNodes < bst.countNodes)) := by
  have hb2 : IsBST (bst.deleteNode oldKey).2.root := isBST_step bst (Op.delete oldKey) hb
  refine ⟨?_, ?_, ?_⟩
  · intro e he
    by_cases hk : K ∈ inorderKeys bst.root
    · rw [insertNode_of_mem bst K hb hk]
    · rw [insertNode_of_not_mem bst K hb hk] at he
      cases he
  · unfold updateNode
    constructor
    · rintro ⟨e, he⟩
      by_contra hk
      rw [insertNode_of_not_mem _ newKey hb2 hk] at he
      cases he
    · intro hk
      rw [insertNode_of_mem _ newKey hb2 hk]
      exact ⟨_, rfl⟩
  · intro e he
    unfold updateNode at he ⊢
    have hk : newKey ∈ inorderKeys (bst.deleteNode oldKey).2.root := by
      by_contra hk
      rw [insertNode_of_not_mem _ newKey hb2 hk] at he
      cases he
    rw [insertNode_of_mem _ newKey hb2 hk] at he ⊢
    refine ⟨?_, rfl, ?_, ?_⟩
    · cases he; rfl
    · intro ho
      rw [deleteNode_of_not_mem bst oldKey hb ho]
    · intro ho
      exact ⟨not_mem_after_deleteNode bst oldKey hb, countNodes_deleteNode_lt bst oldKey hb ho⟩

/-- C12: `inorderTraversalFillArray(the_array, size)` throws the size-mismatch
`logic_error` if and only if `size` differs from `countNodes()`, and when it throws no
cell has been assigned: the array is what it was.  With size 4 on the 6-node tree left by
deleting "D" from the scenario tree it throws. -/
theorem inorderTraversalFillArray_size_check (bst : BinarySearchTree)
    (the_array : Nat → String) (size : Int) :
    ((bst.inorderTraversalFillArray the_array size).1
        = Except.error "Fatal error in Binary Search Tree sort." ↔
        size ≠ (bst.countNodes : Int)) ∧
      ((bst.inorderTraversalFillArray the_array size).1 = Except.ok () ↔
        size = (bst.countNodes : Int)) ∧
      (size ≠ (bst.countNodes : Int) →
        (bst.inorderTraversalFillArray the_array size).2.the_array = the_array ∧
        (bst.inorderTraversalFillArray the_array size).2.written = []) ∧
      ((scenarioTree.deleteNode "D").2.countNodes = 6 ∧
        ((scenarioTree.deleteNode "D").2.inorderTraversalFillArray the_array 4).1
          = Except.error "Fatal error in Binary Search Tree sort." ∧
        ((scenarioTree.deleteNode "D").2.inorderTraversalFillArray the_array 4).2.the_array
          = the_array ∧
        ((scenarioTree.deleteNode "D").2.inorderTraversalFillArray the_array 4).2.written
          = []) := by
  have hcount : (scenarioTree.deleteNode "D").2.countNodes = 6 := by decide
  refine ⟨?_, ?_, ?_, hcount, ?_⟩
  · unfold inorderTraversalFillArray
    by_cases h : size = (bst.countNodes : Int) <;> simp [h, SIZE_MESSAGE]
  · unfold inorderTraversalFillArray
    by_cases h : size = (bst.countNodes : Int) <;> simp [h]
  · intro h
    unfold inorderTraversalFillArray
    simp [h]
  · unfold inorderTraversalFillArray
    rw [hcount]
    simp [SIZE_MESSAGE]

/-- C13: on a BST-valid tree with `n = countNodes()` nodes, `inorderTraversalFillArray`
with size `n` succeeds; the cells assigned are 0, 1, ..., n-1, each once and in this
order; cell `i` then holds the `i`-th inorder key, so the first `n` cells hold exactly
the keys of the tree in strictly ascending order; every cell from `n` on is what it
was. -/
theorem inorderTraversalFillArray_fills (bst : BinarySearchTree) (the_array : Nat → String)
    (hb : IsBST bst.root) :
    (bst.inorderTraversalFillArray the_array bst.countNodes).1 = Except.ok () ∧
      (bst.inorderTraversalFillArray the_array bst.countNodes).2.written
        = List.range bst.countNodes ∧
      (∀ i, i < bst.countNodes → (inorderKeys bst.root)[i]?
        = some ((bst.inorderTraversalFillArray the_array bst.countNodes).2.the_array i)) ∧
      (List.range bst.countNodes).map
          (bst.inorderTraversalFillArray the_array bst.countNodes).2.the_array
        = inorderKeys bst.root ∧
      ((List.range bst.countNodes).map
          (bst.inorderTraversalFillArray the_array bst.countNodes).2.the_array).Pairwise
        (· < ·) ∧
      (∀ i, bst.countNodes ≤ i →
        (bst.inorderTraversalFillArray the_array bst.countNodes).2.the_array i
          = the_array i) := by
  obtain ⟨_, h2, h3, h4⟩ := inorderFillArray_spec bst.root ⟨the_array, 0, []⟩
  have hres : bst.inorderTraversalFillArray the_array bst.countNodes
      = (Except.ok (), inorderFillArray bst.root ⟨the_array, 0, []⟩) := by
    unfold inorderTraversalFillArray
    simp
  rw [hres]
  simp only [countNodes_eq] at *
  simp only [List.nil_append, Nat.zero_add, Nat.not_lt_zero, false_or] at h2 h3 h4
  have hmap : (List.range (inorderKeys bst.root).length).map
      (inorderFillArray bst.root ⟨the_array, 0, []⟩).the_array = inorderKeys bst.root := by
    apply List.ext_getElem?
    intro i
    by_cases hi : i < (inorderKeys bst.root).length
    · rw [h4 i hi]
      simp [List.getElem?_map, List.getElem?_range hi]
    · have hi2 : (inorderKeys bst.root).length ≤ i := Nat.le_of_not_lt hi
      rw [List.getElem?_eq_none (by simpa using hi2), List.getElem?_eq_none hi2]
  refine ⟨trivial, ?_, h4, hmap, ?_, h3⟩
  · rw [h2, List.range_eq_range']
  · rw [hmap]
    exact (isBST_iff_sorted _).1 hb

/-- C14: on a BST-valid tree and for a key `oldKey` that is not in it,
`updateNode(oldKey, newKey)` has the outcome and leaves the tree of
`insertNode(newKey)`. -/
theorem updateNode_absent_old (bst : BinarySearchTree) (oldKey newKey : String)
    (hb : IsBST bst.root) (hk : oldKey ∉ inorderKeys bst.root) :
    bst.updateNode oldKey newKey = bst.insertNode newKey := by
  unfold updateNode
  rw [deleteNode_of_not_mem bst oldKey hb hk]

/-- C15: inserting "M", "D", "P", "A", "F", "N", "Z" in this order into an empty tree
gives the scenario tree; its preorder output is `[M] [D] [A] [F] [P] [N] [Z] ` and its
inorder output lists A, D, F, M, N, P, Z, each followed by a tab. -/
theorem scenario_construction :
    insertAll empty ["M", "D", "P", "A", "F", "N", "Z"] = Except.ok scenarioTree ∧
      scenarioTree.preorderTraversal = "[M] [D] [A] [F] [P] [N] [Z] " ∧
      preorderKeys scenarioTree.root = ["M", "D", "A", "F", "P", "N", "Z"] ∧
      scenarioTree.inorderTraversal = "A\tD\tF\tM\tN\tP\tZ\t" ∧
      inorderKeys scenarioTree.root = ["A", "D", "F", "M", "N", "P", "Z"] := by
  refine ⟨by rfl, by decide, by decide, by decide, by decide⟩

/-- C16, on the code: after `deleteNode("D")` on the scenario tree the node that held "D"
holds "A", not "F", and the preorder output is not `[M] [F] [A] [P] [N] [Z] `. -/
theorem scenario_delete_not_successor :
    (scenarioTree.deleteNode "D").2.root.getData [Dir.L] = "A" ∧
      (scenarioTree.deleteNode "D").2.root.getData [Dir.L] ≠ "F" ∧
      (scenarioTree.deleteNode "D").2.preorderTraversal ≠ "[M] [F] [A] [P] [N] [Z] " ∧
      preorderKeys (scenarioTree.deleteNode "D").2.root ≠ ["M", "F", "A", "P", "N", "Z"] := by
  refine ⟨by decide, by decide, by decide, by decide⟩

/-- C16, amended: on the scenario tree `deleteNode("D")` returns "D" and replaces "D" by
"A", the key of the rightmost node of its left subtree; afterwards the preorder output is
`[M] [A] [F] [P] [N] [Z] ` and the inorder output lists A, F, M, N, P, Z. -/
theorem scenario_delete_two_children :
    scenarioTree.root.sub [Dir.L]
        = node (node null "A" null) "D" (node null "F" null) ∧
      scenarioTree.deleteNode "D" =
        ("D", ⟨node (node null "A" (node null "F" null)) "M"
          (node (node null "N" null) "P" (node null "Z" null))⟩) ∧
      (scenarioTree.deleteNode "D").2.preorderTraversal = "[M] [A] [F] [P] [N] [Z] " ∧
      preorderKeys (scenarioTree.deleteNode "D").2.root = ["M", "A", "F", "P", "N", "Z"] ∧
      (scenarioTree.deleteNode "D").2.inorderTraversal = "A\tF\tM\tN\tP\tZ\t" ∧
      inorderKeys (scenarioTree.deleteNode "D").2.root = ["A", "F", "M", "N", "P", "Z"] := by
  refine ⟨by decide, by decide, by decide, by decide, by decide, by decide⟩

end BinarySearchTree

namespace TreeNode

theorem rightSpine_all_R (t : TreeNode) : ∀ x ∈ rightSpine t, x = Dir.R := by
  induction t with
  | null => simp [rightSpine]
  | node l d r _ ihr =>
    unfold rightSpine
    cases hr : r.isNull with
    | true => simp
    | false =>
      simp only [Bool.false_eq_true, if_false, List.mem_cons]
      rintro x (rfl | hx)
      · rfl
      · exact ihr x hx

theorem getRight_cons_R (l r : TreeNode) (d : String) (p : List Dir) :
    (node l d r).getRight (Dir.R :: p) = (r.getRight p).map (fun q => Dir.R :: q) := by
  unfold getRight
  simp only [sub_node_R]
  cases r.sub p with
  | null => rfl
  | node a e b => cases hb : b.isNull <;> simp [hb]

theorem getRight_rightSpine (t : TreeNode) : t.getRight (rightSpine t) = none := by
  induction t with
  | null => simp [rightSpine, getRight]
  | node l d r _ ihr =>
    unfold rightSpine
    cases hr : r.isNull with
    | true => simp [getRight, hr]
    | false =>
      simp only [Bool.false_eq_true, if_false]
      rw [getRight_cons_R, ihr]
      rfl

/-- In a tree with the BST property the key of the rightmost node is the largest key. -/
theorem le_maxKey (t : TreeNode) (hb : IsBST t) (x : String) (hx : x ∈ inorderKeys t) :
    x ≤ maxKey t := by
  have hne : t ≠ null := by
    intro h0
    rw [h0] at hx
    simp at hx
  have hs := (isBST_iff_sorted t).1 hb
  rw [inorderKeys_cutMax t hne, ← List.append_assoc] at hs hx
  rcases List.mem_append.1 hx with h | h
  · exact le_of_lt ((List.pairwise_append.1 hs).2.2 x h (maxKey t) (by simp))
  · simp only [List.mem_singleton] at h
    exact le_of_eq h

end TreeNode

namespace BinarySearchTree

/-- C17: what `findNode(key, node, parent)` leaves in `node` and `parent`.  If `node` is
not `nullptr`, it points to a node holding `key`, `parent` is `nullptr` exactly when that
node is the root, and otherwise `parent` points to the node whose left or right link is
`node`; the node is the one the search path ends at.  If `node` is `nullptr`, `parent`
is `nullptr` exactly when the tree is empty, and
otherwise points to the last node visited, whose key differs from `key` and whose link on
the side chosen by the comparison (left if `key` is smaller, right otherwise) is absent.
A node on the search path that holds `key` is the node returned, and on a BST-valid tree
every key of the tree is found. -/
theorem findNode_spec (bst : BinarySearchTree) (key : String) :
    (∀ sp, (bst.findNode key).1 = some sp →
        sp = searchPath key bst.root ∧
        (∃ l r, bst.root.sub sp = node l key r) ∧
        ((bst.findNode key).2 = none ↔ sp = []) ∧
        (∀ pp, (bst.findNode key).2 = some pp →
          bst.root.sub pp ≠ null ∧
          (bst.root.getLeft pp = some sp ∨ bst.root.getRight pp = some sp))) ∧
      ((bst.findNode key).1 = none →
        ((bst.findNode key).2 = none ↔ bst.root = null) ∧
        (∀ pp, (bst.findNode key).2 = some pp →
          ∃ l d r x, bst.root.sub pp = node l d r ∧ d ≠ key ∧
            searchPath key bst.root = pp ++ [x] ∧ (x = Dir.L ↔ key < d) ∧
            (key < d → l = null) ∧ (¬ key < d → r = null))) ∧
      (∀ p, p <+: searchPath key bst.root → (∃ l r, bst.root.sub p = node l key r) →
        (bst.findNode key).1 = some p) ∧
      (IsBST bst.root → key ∈ inorderKeys bst.root →
        ∃ sp l r, (bst.findNode key).1 = some sp ∧ bst.root.sub sp = node l key r) := by
  rw [findNode_eq]
  generalize hq : searchPath key bst.root = q
  have hsub := searchPath_sub key bst.root
  rw [hq] at hsub
  refine ⟨?_, ?_, ?_, ?_⟩
  · intro sp hsp
    simp only at hsp ⊢
    rcases hsub with h0 | ⟨l, r, hnode⟩
    · simp [h0, isNull] at hsp
    · have hsp2 : q = sp := by simpa [hnode, isNull] using hsp
      subst hsp2
      refine ⟨rfl, ⟨l, r, hnode⟩, ?_, ?_⟩
      · by_cases hqn : q = [] <;> simp [hqn]
      · intro pp hpp
        by_cases hqn : q = []
        · simp [hqn] at hpp
        · simp only [hqn, if_false, Option.some.injEq] at hpp
          obtain ⟨x, hx⟩ := dropLast_append_getLast_eq q hqn
          rw [hpp] at hx
          have hne : bst.root.sub (pp ++ [x]) ≠ null := by rw [← hx, hnode]; simp
          refine ⟨?_, ?_⟩
          · intro h0
            rw [sub_append, h0] at hne
            simp at hne
          · rw [hx]
            cases x with
            | L => exact Or.inl (getLeft_eq_left _ _ hne)
            | R => exact Or.inr (getRight_eq_right _ _ hne)
  · intro hnone
    simp only at hnone ⊢
    have h0 : bst.root.sub q = null := by
      rcases hsub with h0 | ⟨l, r, hnode⟩
      · exact h0
      · simp [hnode, isNull] at hnone
    refine ⟨?_, ?_⟩
    · by_cases hqn : q = []
      · simp only [hqn, if_true, true_iff]
        simpa [hqn] using h0
      · simp only [hqn, if_false, reduceCtorEq, false_iff]
        intro hroot
        rw [hroot] at hq
        simp [searchPath] at hq
        exact hqn hq.symm.symm
    · intro pp hpp
      by_cases hqn : q = []
      · simp [hqn] at hpp
      · simp only [hqn, if_false, Option.some.injEq] at hpp
        obtain ⟨x, hx⟩ := dropLast_append_getLast_eq q hqn
        rw [hpp] at hx
        obtain ⟨l, d, r, hnode, hd, hdir⟩ :=
          searchPath_last key bst.root pp x (hq.trans hx)
        rw [hx, sub_append, hnode] at h0
        rw [strLt_iff] at hdir
        refine ⟨l, d, r, x, hnode, hd, hx, hdir, ?_, ?_⟩
        · intro hlt
          have : x = Dir.L := hdir.2 hlt
          subst this
          simpa using h0
        · intro hlt
          cases x with
          | L => exact absurd (hdir.1 rfl) hlt
          | R => simpa using h0
  · rintro p ⟨rest, hrest⟩ ⟨l, r, hnode⟩
    cases rest with
    | nil =>
      simp only [List.append_nil] at hrest
      subst hrest
      simp [hnode, isNull]
    | cons x rest =>
      obtain ⟨l2, d2, r2, hnode2, hd2⟩ :=
        searchPath_prefix_ne key bst.root p rest x (hq.trans hrest.symm)
      rw [hnode] at hnode2
      cases hnode2
      exact absurd rfl hd2
  · intro hb hk
    have hfound := found_of_mem key bst.root hb hk
    rw [hq] at hfound
    obtain ⟨l, r, hnode⟩ := hsub.resolve_left hfound
    exact ⟨q, l, r, by simp [hnode, isNull], hnode⟩

/-- C18: on a BST-valid tree, `deleteNode(K)` for a key `K` whose node has two children
replaces that node, in its place, by a node with the same right subtree, the key of the
rightmost node of its left subtree, and the left subtree cut at that rightmost node;
nothing else in the tree changes.  That key is a key of the tree, it is less than `K`,
and every key of the tree that is less than `K` is at most that key. -/
theorem deleteNode_two_children (bst : BinarySearchTree) (K : String) (q : List Dir)
    (l r : TreeNode) (hb : IsBST bst.root) (h : bst.root.sub q = node l K r)
    (hl : l ≠ null) (hr : r ≠ null) :
    (bst.deleteNode K).2.root
        = bst.root.modify (fun _ => node (cutMax l) (maxKey l) r) q ∧
      (bst.deleteNode K).2.root.sub q = node (cutMax l) (maxKey l) r ∧
      maxKey l = l.getData (rightSpine l) ∧
      (∀ x ∈ rightSpine l, x = Dir.R) ∧ l.sub (rightSpine l) ≠ null ∧
      l.getRight (rightSpine l) = none ∧
      maxKey l ∈ inorderKeys bst.root ∧ maxKey l < K ∧
      (∀ x ∈ inorderKeys bst.root, x < K → x ≤ maxKey l) := by
  have hne : bst.root.sub q ≠ null := by rw [h]; simp
  have hrem : removeNode (node l K r) = node (cutMax l) (maxKey l) r := by
    simp [removeNode, (isNull_eq_false_iff l).2 hl, (isNull_eq_false_iff r).2 hr]
  have hroot : (bst.deleteNode K).2.root
      = bst.root.modify (fun _ => node (cutMax l) (maxKey l) r) q := by
    rw [deleteNode_at bst K q l r hb h]
    apply modify_congr_sub
    rw [h, hrem]
  have hsubb : IsBST (node l K r) := h ▸ isBST_sub bst.root q hb
  obtain ⟨pre, post, e1, -⟩ := inorderKeys_modify bst.root q hne
  rw [h] at e1
  have hmaxl : maxKey l ∈ inorderKeys l := maxKey_mem l hl
  have hs := (isBST_iff_sorted _).1 hb
  rw [e1] at hs
  refine ⟨hroot, ?_, (getData_rightSpine l).symm, rightSpine_all_R l, rightSpine_sub l hl,
    getRight_rightSpine l, ?_, hsubb.1 _ hmaxl, ?_⟩
  · rw [hroot, sub_modify _ _ _ hne]
  · rw [e1]
    simp [hmaxl]
  · intro x hx hxK
    rw [e1] at hx
    simp only [inorderKeys_node, List.mem_append, List.mem_cons] at hx
    have hs1 := List.pairwise_append.1 hs
    have hs2 := List.pairwise_append.1 hs1.1
    rcases hx with ((hx | hx | hx | hx) | hx)
    · exact le_of_lt (hs2.2.2 x hx (maxKey l) (by simp [hmaxl]))
    · exact le_maxKey l hsubb.2.2.1 x hx
    · exact absurd hxK (by rw [hx]; exact lt_irrefl K)
    · exact absurd hxK (lt_asymm (hsubb.2.1 x hx))
    · have hKx : K < x := hs1.2.2 K (by simp) x hx
      exact absurd hxK (lt_asymm hKx)

/-- C19: on a BST-valid tree, `deleteNode(K)` for a key `K` whose node has at most one
child returns `K` and puts the only child subtree (nothing, for a leaf) in the place of
that node; nothing else in the tree changes.  The inorder, preorder and postorder keys
afterwards are the previous ones with `K` removed, and the count is one less.  Deleting
the only node of a one-node tree makes `isEmpty()` true. -/
theorem deleteNode_at_most_one_child (bst : BinarySearchTree) (K : String) (q : List Dir)
    (l r : TreeNode) (hb : IsBST bst.root) (h : bst.root.sub q = node l K r)
    (hc : l = null ∨ r = null) :
    (bst.deleteNode K).1 = K ∧
      (bst.deleteNode K).2.root = bst.root.modify (fun _ => if l.isNull then r else l) q ∧
      inorderKeys (bst.deleteNode K).2.root = (inorderKeys bst.root).erase K ∧
      preorderKeys (bst.deleteNode K).2.root = (preorderKeys bst.root).erase K ∧
      postorderKeys (bst.deleteNode K).2.root = (postorderKeys bst.root).erase K ∧
      (bst.deleteNode K).2.countNodes + 1 = bst.countNodes ∧
      (deleteNode ⟨node null K null⟩ K).2.isEmpty = true := by
  have hne : bst.root.sub q ≠ null := by rw [h]; simp
  have hrem : removeNode (node l K r) = if l.isNull then r else l := by
    rcases hc with h0 | h0
    · simp [removeNode, h0, isNull]
    · cases l <;> simp [removeNode, h0, isNull]
  have hroot : (bst.deleteNode K).2.root
      = bst.root.modify (fun _ => if l.isNull then r else l) q := by
    rw [deleteNode_at bst K q l r hb h]
    apply modify_congr_sub
    rw [h, hrem]
  have hnd := nodup_inorderKeys bst.root hb
  obtain ⟨pre1, post1, a1, a2⟩ := inorderKeys_modify bst.root q hne
  obtain ⟨pre2, post2, b1, b2⟩ := preorderKeys_modify bst.root q hne
  obtain ⟨pre3, post3, c1, c2⟩ := postorderKeys_modify bst.root q hne
  have hin : inorderKeys (bst.deleteNode K).2.root = (inorderKeys bst.root).erase K := by
    rw [hroot, a2, a1, h]
    have hnd1 := hnd
    rw [a1, h] at hnd1
    rcases hc with h0 | h0
    · subst h0
      simp only [isNull, if_true, inorderKeys_node, inorderKeys_null, List.nil_append,
        List.append_assoc, List.cons_append] at hnd1 ⊢
      rw [erase_middle _ _ _ hnd1]
    · subst h0
      have e : (if l.isNull = true then null else l) = l := by cases l <;> simp [isNull]
      simp only [e, inorderKeys_node, inorderKeys_null, List.append_assoc, List.cons_append,
        List.nil_append] at hnd1 ⊢
      rw [erase_middle3 _ _ _ _ hnd1]
  have hpre : preorderKeys (bst.deleteNode K).2.root = (preorderKeys bst.root).erase K := by
    rw [hroot, b2, b1, h]
    have hnd1 : (preorderKeys bst.root).Nodup := (preorderKeys_perm _).nodup_iff.2 hnd
    rw [b1, h] at hnd1
    rcases hc with h0 | h0
    · subst h0
      simp only [isNull, if_true, preorderKeys_node, preorderKeys_null, List.nil_append,
        List.append_assoc, List.cons_append] at hnd1 ⊢
      rw [erase_middle _ _ _ hnd1]
    · subst h0
      have e : (if l.isNull = true then null else l) = l := by cases l <;> simp [isNull]
      simp only [e, preorderKeys_node, preorderKeys_null, List.append_assoc,
        List.cons_append, List.append_nil] at hnd1 ⊢
      rw [erase_middle _ _ _ hnd1]
  have hpost : postorderKeys (bst.deleteNode K).2.root
      = (postorderKeys bst.root).erase K := by
    rw [hroot, c2, c1, h]
    have hnd1 : (postorderKeys bst.root).Nodup := (postorderKeys_perm _).nodup_iff.2 hnd
    rw [c1, h] at hnd1
    rcases hc with h0 | h0
    · subst h0
      simp only [isNull, if_true, postorderKeys_node, postorderKeys_null, List.nil_append,
        List.append_assoc, List.cons_append] at hnd1 ⊢
      rw [erase_middle3 _ _ _ _ hnd1]
    · subst h0
      have e : (if l.isNull = true then null else l) = l := by cases l <;> simp [isNull]
      simp only [e, postorderKeys_node, postorderKeys_null, List.append_assoc,
        List.cons_append, List.nil_append] at hnd1 ⊢
      rw [erase_middle3 _ _ _ _ hnd1]
  refine ⟨?_, hroot, hin, hpre, hpost, ?_, ?_⟩
  · rw [deleteNode_at bst K q l r hb h]
  · rw [countNodes_eq, countNodes_eq, hin]
    have hK : K ∈ inorderKeys bst.root := mem_inorderKeys_of_sub _ q l r K h
    rw [List.length_erase_of_mem hK]
    have : 0 < (inorderKeys bst.root).length := List.length_pos_of_mem hK
    omega
  · rw [deleteNode_at ⟨node null K null⟩ K [] null null
      ⟨by simp, by simp, trivial, trivial⟩ (by simp)]
    simp [isEmpty, removeNode, isNull]

/-- C20: the one-node tree whose key is the text "Did not locate node in tree." is
BST-valid and holds that key, yet `fetchNode` and `deleteNode` of that key return on it
what they return on the empty tree, which does not hold it.  For any other key `K` and
any BST-valid tree, `fetchNode(K)` is the sentinel if and only if `K` is not in the
tree. -/
theorem sentinel_collision :
    IsBST (node null "Did not locate node in tree." null) ∧
      "Did not locate node in tree."
        ∈ inorderKeys (node null "Did not locate node in tree." null) ∧
      "Did not locate node in tree." ∉ inorderKeys empty.root ∧
      fetchNode ⟨node null "Did not locate node in tree." null⟩
          "Did not locate node in tree."
        = fetchNode empty "Did not locate node in tree." ∧
      (deleteNode ⟨node null "Did not locate node in tree." null⟩
          "Did not locate node in tree.").1
        = (deleteNode empty "Did not locate node in tree.").1 ∧
      ∀ (bst : BinarySearchTree) (K : String), IsBST bst.root →
        K ≠ "Did not locate node in tree." →
        (bst.fetchNode K = "Did not locate node in tree." ↔ K ∉ inorderKeys bst.root) := by
  refine ⟨(isBST_iff_isBSTb _).2 (by decide), by decide, by decide, by decide, by decide, ?_⟩
  intro bst K hb hK
  rw [fetchNode_eq]
  by_cases hk : K ∈ inorderKeys bst.root
  · rw [(found_iff_mem K bst.root hb).2 hk]
    simp [hk, hK]
  · rw [(not_found_iff_not_mem K bst.root hb).2 hk]
    simp [hk, NOT_FOUND_MESSAGE]

end BinarySearchTree

/-! ## The contract on the concrete scenario, continued -/

namespace BinarySearchTree

/-- Witness of C11: `updateNode("A", "D")` on the scenario tree throws, "D" being in the
tree left by `deleteNode("A")`. -/
theorem mutation_outcomes_witness :
    IsBST scenarioTree.root ∧
      "D" ∈ inorderKeys (scenarioTree.deleteNode "A").2.root ∧
      ∃ e, (scenarioTree.updateNode "A" "D").1 = Except.error e :=
  ⟨scenarioTree_isBST, by decide,
    (mutation_outcomes scenarioTree "D" "A" "D" scenarioTree_isBST).2.1.2 (by decide)⟩

/-- Witness of C13: filling an array from the scenario tree. -/
theorem inorderTraversalFillArray_fills_witness :
    IsBST scenarioTree.root ∧
      (scenarioTree.inorderTraversalFillArray (fun _ => "") scenarioTree.countNodes).1
        = Except.ok () ∧
      (scenarioTree.inorderTraversalFillArray (fun _ => "") scenarioTree.countNodes).2.written
        = List.range scenarioTree.countNodes ∧
      (List.range scenarioTree.countNodes).map
          (scenarioTree.inorderTraversalFillArray (fun _ => "")
            scenarioTree.countNodes).2.the_array
        = inorderKeys scenarioTree.root :=
  ⟨scenarioTree_isBST,
    (inorderTraversalFillArray_fills scenarioTree (fun _ => "") scenarioTree_isBST).1,
    (inorderTraversalFillArray_fills scenarioTree (fun _ => "") scenarioTree_isBST).2.1,
    (inorderTraversalFillArray_fills scenarioTree (fun _ => "") scenarioTree_isBST).2.2.2.1⟩

/-- Witness of C14: updating the absent key "X" to "Q". -/
theorem updateNode_absent_old_witness :
    IsBST scenarioTree.root ∧ "X" ∉ inorderKeys scenarioTree.root ∧
      scenarioTree.updateNode "X" "Q" = scenarioTree.insertNode "Q" :=
  ⟨scenarioTree_isBST, by decide,
    updateNode_absent_old scenarioTree "X" "Q" scenarioTree_isBST (by decide)⟩

/-- Witness of C18: deleting "D", whose node has the children "A" and "F". -/
theorem deleteNode_two_children_witness :
    IsBST scenarioTree.root ∧
      scenarioTree.root.sub [Dir.L] = node (node null "A" null) "D" (node null "F" null) ∧
      (scenarioTree.deleteNode "D").2.root.sub [Dir.L]
        = node (cutMax (node null "A" null)) (maxKey (node null "A" null))
            (node null "F" null) ∧
      maxKey (node null "A" null) < "D" :=
  ⟨scenarioTree_isBST, by decide,
    (deleteNode_two_children scenarioTree "D" [Dir.L] (node null "A" null)
      (node null "F" null) scenarioTree_isBST (by decide) (by decide) (by decide)).2.1,
    (deleteNode_two_children scenarioTree "D" [Dir.L] (node null "A" null)
      (node null "F" null) scenarioTree_isBST (by decide) (by decide)
      (by decide)).2.2.2.2.2.2.2.1⟩

/-- Witness of C19: deleting the leaf "A". -/
theorem deleteNode_at_most_one_child_witness :
    IsBST scenarioTree.root ∧
      scenarioTree.root.sub [Dir.L, Dir.L] = node null "A" null ∧
      (scenarioTree.deleteNode "A").1 = "A" ∧
      inorderKeys (scenarioTree.deleteNode "A").2.root
        = (inorderKeys scenarioTree.root).erase "A" ∧
      preorderKeys (scenarioTree.deleteNode "A").2.root
        = (preorderKeys scenarioTree.root).erase "A" ∧
      postorderKeys (scenarioTree.deleteNode "A").2.root
        = (postorderKeys scenarioTree.root).erase "A" :=
  ⟨scenarioTree_isBST, by decide,
    (deleteNode_at_most_one_child scenarioTree "A" [Dir.L, Dir.L] null null
      scenarioTree_isBST (by decide) (Or.inl rfl)).1,
    (deleteNode_at_most_one_child scenarioTree "A" [Dir.L, Dir.L] null null
      scenarioTree_isBST (by decide) (Or.inl rfl)).2.2.1,
    (deleteNode_at_most_one_child scenarioTree "A" [Dir.L, Dir.L] null null
      scenarioTree_isBST (by decide) (Or.inl rfl)).2.2.2.1,
    (deleteNode_at_most_one_child scenarioTree "A" [Dir.L, Dir.L] null null
      scenarioTree_isBST (by decide) (Or.inl rfl)).2.2.2.2.1⟩

end BinarySearchTree

/-! ## Texts inside the traversal outputs -/

namespace BinarySearchTree

/-- A run of characters without the character `c` that occurs in `a ++ c :: b` occurs in
`a` or in `b`. -/
theorem infix_split (w a b : List Char) (c : Char) (hc : c ∉ w) (h : w <:+: a ++ c :: b) :
    w <:+: a ∨ w <:+: b := by
  obtain ⟨s, t, hst⟩ := h
  rcases List.append_eq_append_iff.1 hst with ⟨a2, ha, _⟩ | ⟨c2, hc2, hcb⟩
  · exact Or.inl ⟨s, a2, ha.symm⟩
  · cases c2 with
    | nil =>
      simp only [List.append_nil] at hc2
      exact Or.inl ⟨s, [], by simp [hc2]⟩
    | cons x c3 =>
      simp only [List.cons_append, List.cons.injEq] at hcb
      obtain ⟨hx, hb⟩ := hcb
      subst hx
      rcases List.append_eq_append_iff.1 hc2 with ⟨a3, _, hw⟩ | ⟨c4, hs, hcw⟩
      · exact absurd (by rw [hw]; simp) hc
      · cases c4 with
        | nil =>
          simp only [List.nil_append] at hcw
          exact absurd (by rw [← hcw]; simp) hc
        | cons y c5 =>
          simp only [List.cons_append, List.cons.injEq] at hcw
          exact Or.inr ⟨c5, t, by rw [hb, hcw.2, List.append_assoc]⟩

theorem renderTab_data (out : String) (ks : List String) :
    (renderTab out ks).data
      = out.data ++ (ks.map (fun k => k.data ++ ['\t'])).flatten := by
  induction ks generalizing out with
  | nil => simp [renderTab]
  | cons k ks ih =>
    have e : renderTab out (k :: ks) = renderTab (out ++ (k ++ "\t")) ks := rfl
    rw [e, ih]
    simp [String.data_append]

theorem renderBracket_data (out : String) (ks : List String) :
    (renderBracket out ks).data
      = out.data ++ (ks.map (fun k => '[' :: (k.data ++ [']', ' ']))).flatten := by
  induction ks generalizing out with
  | nil => simp [renderBracket]
  | cons k ks ih =>
    have e : renderBracket out (k :: ks) = renderBracket (out ++ ("[" ++ k ++ "] ")) ks := rfl
    rw [e, ih]
    simp [String.data_append]

/-- A non-empty run of characters without a tab that occurs in a listing of keys, each
followed by a tab, occurs in one of the keys. -/
theorem infix_tab_entries (w : List Char) (hne : w ≠ []) (ht : '\t' ∉ w)
    (ks : List String) (h : w <:+: (ks.map (fun k => k.data ++ ['\t'])).flatten) :
    ∃ k ∈ ks, w <:+: k.data := by
  induction ks with
  | nil => exact absurd (List.infix_nil.1 (by simpa using h)) hne
  | cons k ks ih =>
    simp only [List.map_cons, List.flatten_cons, List.append_assoc, List.singleton_append] at h
    rcases infix_split w _ _ '\t' ht h with h1 | h1
    · exact ⟨k, List.mem_cons_self k ks, h1⟩
    · obtain ⟨k2, hk2, hw⟩ := ih h1
      exact ⟨k2, List.mem_cons_of_mem k hk2, hw⟩

/-- A run of characters without brackets that occurs in a listing of keys, each between
brackets and followed by a blank, occurs in one of the keys or in a single blank. -/
theorem infix_bracket_entries (w : List Char) (h1 : '[' ∉ w) (h2 : ']' ∉ w)
    (ks : List String)
    (h : w <:+: (ks.map (fun k => '[' :: (k.data ++ [']', ' ']))).flatten ∨
      w <:+: ' ' :: (ks.map (fun k => '[' :: (k.data ++ [']', ' ']))).flatten) :
    (∃ k ∈ ks, w <:+: k.data) ∨ w <:+: [' '] := by
  induction ks with
  | nil =>
    rcases h with h | h
    · have : w = [] := List.infix_nil.1 (by simpa using h)
      exact Or.inr (by rw [this]; exact ⟨[], [' '], rfl⟩)
    · exact Or.inr (by simpa using h)
  | cons k ks ih =>
    simp only [List.map_cons, List.flatten_cons, List.cons_append, List.append_assoc,
      List.nil_append] at h
    have step : w <:+: k.data ++ ']' :: ' ' ::
        (ks.map (fun k => '[' :: (k.data ++ [']', ' ']))).flatten →
        (∃ k2 ∈ k :: ks, w <:+: k2.data) ∨ w <:+: [' '] := by
      intro h3
      rcases infix_split w _ _ ']' h2 h3 with h4 | h4
      · exact Or.inl ⟨k, List.mem_cons_self k ks, h4⟩
      · rcases ih (Or.inr h4) with ⟨k2, hk2, hw⟩ | h5
        · exact Or.inl ⟨k2, List.mem_cons_of_mem k hk2, hw⟩
        · exact Or.inr h5
    rcases h with h | h
    · rcases infix_split w [] _ '[' h1 (by simpa using h) with h3 | h3
      · have : w = [] := List.infix_nil.1 h3
        exact Or.inr (by rw [this]; exact ⟨[], [' '], rfl⟩)
      · exact step h3
    · rcases infix_split w [' '] _ '[' h1 (by simpa using h) with h3 | h3
      · exact Or.inr h3
      · exact step h3

end BinarySearchTree

namespace TreeNode

theorem sub_cutMax (t : TreeNode) (h : t ≠ null) : (cutMax t).sub (rightSpine t) = null := by
  rw [← modify_rightSpine, sub_modify _ _ _ (rightSpine_sub t h)]

theorem sub_rightSpine_left (t : TreeNode) :
    t.sub (rightSpine t ++ [Dir.L]) = maxLeft t := by
  induction t with
  | null => simp [rightSpine, maxLeft]
  | node l d r _ ihr =>
    unfold rightSpine maxLeft
    cases hr : r.isNull with
    | true => simp
    | false => simpa using ihr

end TreeNode

namespace BinarySearchTree

theorem oops_not_in_blank (h : OOPS_MESSAGE.data <:+: [' ']) : False := by
  have := h.length_le
  revert this
  decide

/-- C21: on the empty tree `isEmpty()` is true, `countNodes()` is 0 and each of
`inorderTraversal()`, `preorderTraversal()`, `postorderTraversal()` returns the non-empty
text "Oops - inorder reached nullptr".  On a non-empty tree each output is the listing of
one entry per node and nothing else (the key followed by a tab for inorder, the key
between brackets followed by a blank for preorder and postorder), so nothing comes from
the null branch; and the text "Oops - inorder reached nullptr" occurs in an output only
if it occurs in one of the keys. -/
theorem traversal_outputs (bst : BinarySearchTree) :
    (bst.root = null →
        bst.isEmpty = true ∧ bst.countNodes = 0 ∧
        bst.inorderTraversal = "Oops - inorder reached nullptr" ∧
        bst.preorderTraversal = "Oops - inorder reached nullptr" ∧
        bst.postorderTraversal = "Oops - inorder reached nullptr" ∧
        "Oops - inorder reached nullptr" ≠ "") ∧
      (bst.root ≠ null →
        bst.isEmpty = false ∧
        bst.inorderTraversal = renderTab "" (inorderKeys bst.root) ∧
        bst.preorderTraversal = renderBracket "" (preorderKeys bst.root) ∧
        bst.postorderTraversal = renderBracket "" (postorderKeys bst.root) ∧
        (inorderKeys bst.root).length = bst.countNodes ∧
        (preorderKeys bst.root).length = bst.countNodes ∧
        (postorderKeys bst.root).length = bst.countNodes ∧
        (containsText bst.inorderTraversal "Oops - inorder reached nullptr" →
          ∃ k ∈ inorderKeys bst.root, containsText k "Oops - inorder reached nullptr") ∧
        (containsText bst.preorderTraversal "Oops - inorder reached nullptr" →
          ∃ k ∈ preorderKeys bst.root, containsText k "Oops - inorder reached nullptr") ∧
        (containsText bst.postorderTraversal "Oops - inorder reached nullptr" →
          ∃ k ∈ postorderKeys bst.root, containsText k "Oops - inorder reached nullptr")) := by
  constructor
  · intro h0
    simp only [isEmpty, countNodes, inorderTraversal, preorderTraversal, postorderTraversal, h0]
    exact ⟨rfl, rfl, rfl, rfl, rfl, by decide⟩
  · intro hne
    have hin := inorder_eq bst.root "" hne
    have hpre := preorder_eq bst.root "" hne
    have hpost := postorder_eq bst.root "" hne
    have hbr : ∀ ks : List String,
        containsText (renderBracket "" ks) "Oops - inorder reached nullptr" →
        ∃ k ∈ ks, containsText k "Oops - inorder reached nullptr" := by
      intro ks hc
      unfold containsText at hc
      rw [renderBracket_data] at hc
      rcases infix_bracket_entries ("Oops - inorder reached nullptr" : String).data
        (by decide) (by decide) ks (Or.inl (by simpa using hc)) with h | h
      · exact h
      · exact absurd h oops_not_in_blank
    refine ⟨?_, hin, hpre, hpost, (countNodes_eq bst).symm, ?_, ?_, ?_, ?_, ?_⟩
    · simp [isEmpty, (isNull_eq_false_iff _).2 hne]
    · rw [countNodes_eq, (preorderKeys_perm _).length_eq]
    · rw [countNodes_eq, (postorderKeys_perm _).length_eq]
    · intro hc
      unfold inorderTraversal at hc
      rw [hin] at hc
      unfold containsText at hc
      rw [renderTab_data] at hc
      exact infix_tab_entries ("Oops - inorder reached nullptr" : String).data
        (by decide) (by decide) _ (by simpa using hc)
    · intro hc
      unfold preorderTraversal at hc
      rw [hpre] at hc
      exact hbr _ hc
    · intro hc
      unfold postorderTraversal at hc
      rw [hpost] at hc
      exact hbr _ hc

/-- C22: on a BST-valid tree, `deleteNode(K)` for a key `K` whose node has two children
leaves `nullptr` where the predecessor (the rightmost node of the left subtree) was, and
changes nothing else but the key of the matched node.  The keys afterwards are exactly
the previous keys without `K` and without the keys of the predecessor's left subtree;
`countNodes()` decreases by 1 plus the number of nodes of that subtree, hence by exactly 1
if and only if the predecessor has no left child, that is, is a leaf. -/
theorem deleteNode_two_children_drops (bst : BinarySearchTree) (K : String) (q : List Dir)
    (l r : TreeNode) (hb : IsBST bst.root) (h : bst.root.sub q = node l K r)
    (hl : l ≠ null) (hr : r ≠ null) :
    bst.root.sub (q ++ Dir.L :: rightSpine l) ≠ null ∧
      bst.root.getRight (q ++ Dir.L :: rightSpine l) = none ∧
      bst.root.sub (q ++ Dir.L :: (rightSpine l ++ [Dir.L])) = maxLeft l ∧
      (bst.deleteNode K).2.root
        = bst.root.modify (fun _ => node (cutMax l) (maxKey l) r) q ∧
      (bst.deleteNode K).2.root.sub (q ++ Dir.L :: rightSpine l) = null ∧
      (inorderKeys bst.root).Perm
        (K :: (inorderKeys (maxLeft l) ++ inorderKeys (bst.deleteNode K).2.root)) ∧
      (∀ x, x ∈ inorderKeys (bst.deleteNode K).2.root ↔
        x ∈ inorderKeys bst.root ∧ x ≠ K ∧ x ∉ inorderKeys (maxLeft l)) ∧
      (bst.deleteNode K).2.countNodes + (1 + (inorderKeys (maxLeft l)).length)
        = bst.countNodes ∧
      ((bst.deleteNode K).2.countNodes + 1 = bst.countNodes ↔ maxLeft l = null) := by
  have hne : bst.root.sub q ≠ null := by rw [h]; simp
  have hrem : removeNode (node l K r) = node (cutMax l) (maxKey l) r := by
    simp [removeNode, (isNull_eq_false_iff l).2 hl, (isNull_eq_false_iff r).2 hr]
  have hroot : (bst.deleteNode K).2.root
      = bst.root.modify (fun _ => node (cutMax l) (maxKey l) r) q := by
    rw [deleteNode_at bst K q l r hb h]
    apply modify_congr_sub
    rw [h, hrem]
  obtain ⟨pre, post, e1, e2⟩ := inorderKeys_modify bst.root q hne
  have hafter : inorderKeys (bst.deleteNode K).2.root
      = pre ++ (inorderKeys (cutMax l) ++ maxKey l :: inorderKeys r) ++ post := by
    rw [hroot, e2]
    rfl
  have hbefore : inorderKeys bst.root
      = pre ++ ((inorderKeys (cutMax l) ++ (inorderKeys (maxLeft l) ++ [maxKey l]))
          ++ K :: inorderKeys r) ++ post := by
    rw [e1, h, inorderKeys_node, ← inorderKeys_cutMax l hl]
  have hperm : (inorderKeys bst.root).Perm
      (K :: (inorderKeys (maxLeft l) ++ inorderKeys (bst.deleteNode K).2.root)) := by
    rw [hafter, hbefore, List.perm_iff_count]
    intro a
    simp only [List.count_append, List.count_cons, List.count_nil]
    omega
  have hnd : (K :: (inorderKeys (maxLeft l)
      ++ inorderKeys (bst.deleteNode K).2.root)).Nodup :=
    hperm.nodup_iff.1 (nodup_inorderKeys bst.root hb)
  have hlen := hperm.length_eq
  simp only [List.length_cons, List.length_append] at hlen
  refine ⟨?_, ?_, ?_, hroot, ?_, hperm, ?_, ?_, ?_⟩
  · rw [sub_append, h]
    simpa using rightSpine_sub l hl
  · have hg := getRight_rightSpine l
    unfold getRight at hg ⊢
    rw [sub_append, h]
    simp only [sub_node_L]
    cases hs : l.sub (rightSpine l) with
    | null => rfl
    | node a e b =>
      rw [hs] at hg
      simp only at hg ⊢
      cases hb2 : b.isNull with
      | true => simp
      | false => simp [hb2] at hg
  · rw [sub_append, h]
    simpa using sub_rightSpine_left l
  · rw [hroot, sub_append, sub_modify _ _ _ hne]
    simpa using sub_cutMax l hl
  · intro x
    rw [hperm.mem_iff]
    obtain ⟨hK, hnd2⟩ := List.nodup_cons.1 hnd
    have hdisj := (List.nodup_append.1 hnd2).2.2
    simp only [List.mem_cons, List.mem_append]
    constructor
    · intro hx
      refine ⟨Or.inr (Or.inr hx), ?_, fun hml => hdisj hml hx⟩
      intro hxK
      subst hxK
      exact hK (List.mem_append_right _ hx)
    · rintro ⟨hx | hx | hx, hxK, hml⟩
      · exact absurd hx hxK
      · exact absurd hx hml
      · exact hx
  · rw [countNodes_eq, countNodes_eq]
    omega
  · rw [countNodes_eq, countNodes_eq, ← inorderKeys_eq_nil_iff, ← List.length_eq_zero]
    omega

/-- Witness of C22: on the tree built by inserting "C", "B", "D", "A" the node "C" has
two children and its predecessor "B" has the left child "A". -/
theorem deleteNode_two_children_drops_witness :
    IsBST (node (node (node null "A" null) "B" null) "C" (node null "D" null)) ∧
      (deleteNode ⟨node (node (node null "A" null) "B" null) "C" (node null "D" null)⟩
          "C").2.countNodes
        + (1 + (inorderKeys (maxLeft (node (node null "A" null) "B" null))).length)
        = countNodes ⟨node (node (node null "A" null) "B" null) "C" (node null "D" null)⟩ ∧
      (inorderKeys (node (node (node null "A" null) "B" null) "C" (node null "D" null))).Perm
        ("C" :: (inorderKeys (maxLeft (node (node null "A" null) "B" null)) ++
          inorderKeys (deleteNode
            ⟨node (node (node null "A" null) "B" null) "C" (node null "D" null)⟩
            "C").2.root)) :=
  ⟨(isBST_iff_isBSTb _).2 (by decide),
    (deleteNode_two_children_drops
      ⟨node (node (node null "A" null) "B" null) "C" (node null "D" null)⟩ "C" []
      (node (node null "A" null) "B" null) (node null "D" null)
      ((isBST_iff_isBSTb _).2 (by decide)) (by decide) (by decide)
      (by decide)).2.2.2.2.2.2.2.1,
    (deleteNode_two_children_drops
      ⟨node (node (node null "A" null) "B" null) "C" (node null "D" null)⟩ "C" []
      (node (node null "A" null) "B" null) (node null "D" null)
      ((isBST_iff_isBSTb _).2 (by decide)) (by decide) (by decide)
      (by decide)).2.2.2.2.2.1⟩

end BinarySearchTree
